import Mathlib

/-!
# Verification of the conversation-tree canvas repository

A shallow embedding of the repository's pure logic, with theorems settling the
frozen claims about it.  The embedding covers:

* `truncateSelection` (selection quoting) from the canvas component;
* the `ChatNode` conversation-tree data model and its mutation helpers
  (`removeNode` from `handleDelete`, `updatePosition`/`moveChildren` from
  `handleChatPositionChange`, `addAssistantPlaceholder` and
  `appendResponseChunk` from `handleNewMessage`, `findNode`, `flatten` from
  `flatChats`);
* the layout engine (`layoutHorizontal`/`layoutVertical` from the
  `useLayoutEffect` hook), with coordinates modelled as rationals;
* the request-validation and error paths of the two `/api/chat` route
  variants and of the search tool they expose.

JavaScript numbers are modelled as `ℚ` (the layout arithmetic only ever adds,
subtracts, halves and compares) and strings as Lean `String`s; the string
operations used by `truncateSelection` are carried out on the underlying
character list so that every definition evaluates by kernel reduction.
-/

/-! ## Selection truncation (`truncateSelection`) -/

/-- `text.trim()`: drop whitespace from both ends of the character list. -/
def jsTrim (l : List Char) : List Char :=
  ((l.dropWhile Char.isWhitespace).reverse.dropWhile Char.isWhitespace).reverse

/-- Split a character list at every `'\n'` (the separators are dropped). -/
def splitNewlineChars : List Char → List (List Char)
  | [] => [[]]
  | c :: cs =>
    if c = '\n' then [] :: splitNewlineChars cs
    else
      match splitNewlineChars cs with
      | [] => [[c]]
      | l :: ls => (c :: l) :: ls

/-- One step of `text.split(/\r?\n/)`: the regex lets each line feed consume a
directly preceding carriage return, so a piece that is followed by a line feed
drops one trailing `'\r'`. -/
def dropTrailingCR (l : List Char) : List Char :=
  match l.reverse with
  | '\r' :: rest => rest.reverse
  | _ => l

/-- Map a function over every element of a list except the last one. -/
def mapInit (f : List Char → List Char) : List (List Char) → List (List Char)
  | [] => []
  | [a] => [a]
  | a :: b :: rest => f a :: mapInit f (b :: rest)

/-- `text.split(/\r?\n/)` on a character list: every piece except the last is
followed by a line feed in the input, so it loses one trailing `'\r'`. -/
def splitRegexLines (l : List Char) : List (List Char) :=
  mapInit dropTrailingCR (splitNewlineChars l)

/-- `lines.join(" ")`. -/
def joinSpace (ls : List (List Char)) : List Char :=
  List.intercalate [' '] ls

/-- `truncateSelection` from the canvas component: trim, split into lines,
drop empty (falsy) lines, join the first two with a space, and hard-cap at
240 characters, appending an ellipsis when the cap truncates. -/
def truncateSelection (text : String) : String :=
  let lines := (splitRegexLines (jsTrim text.data)).filter (fun l => !l.isEmpty)
  let firstTwo := joinSpace (lines.take 2)
  let maxChars := 240
  let truncated :=
    if firstTwo.length > maxChars then firstTwo.take maxChars ++ ['…'] else firstTwo
  String.mk truncated

/-- The spec's words for the pre-cap value: "the first two non-blank lines
joined by a space" (reading "non-blank" as non-empty, which is what the
source's falsy-line filter drops). -/
def specFirstTwoNonBlankJoined (text : String) : List Char :=
  joinSpace (((splitRegexLines (jsTrim text.data)).filter (fun l => !l.isEmpty)).take 2)

/-- C1: for any input, `truncateSelection` returns the first two non-blank
lines joined by a space when that join fits in 240 characters, and otherwise
its 240-character cap with a trailing ellipsis appended; in particular the
three-line example collapses to its first two lines with no ellipsis. -/
theorem truncateSelection_first_two_lines_capped :
    (∀ text : String,
      (truncateSelection text = String.mk (specFirstTwoNonBlankJoined text) ∧
        (specFirstTwoNonBlankJoined text).length ≤ 240) ∨
      (truncateSelection text =
          String.mk ((specFirstTwoNonBlankJoined text).take 240 ++ ['…']) ∧
        (specFirstTwoNonBlankJoined text).length > 240)) ∧
    truncateSelection "Line one.\nLine two.\nLine three." = "Line one. Line two." := by
  constructor
  · intro text
    simp only [truncateSelection, specFirstTwoNonBlankJoined]
    split_ifs with h
    · right
      exact ⟨rfl, h⟩
    · left
      exact ⟨rfl, by omega⟩
  · decide

/-! ## Conversation-tree data model -/

/-- Message roles (`"user" | "assistant"`). -/
inductive Role : Type where
  | user : Role
  | assistant : Role
deriving DecidableEq, Repr

/-- `ChatMessage` from the canvas component. -/
structure ChatMessage : Type where
  role : Role
  content : String
deriving DecidableEq, Repr

/-- `ChatNode` from the canvas component.  Coordinates and the measured height
are rationals; the optional `manualPosition`/`isThinking` flags are booleans
(absent = `false`). -/
inductive ChatNode : Type where
  | mk (id : Nat) (quotedText : Option String) (children : List ChatNode)
      (x y height : ℚ) (manualPosition : Bool)
      (conversation : List ChatMessage) (isThinking : Bool) : ChatNode

namespace ChatNode

def id : ChatNode → Nat
  | .mk i _ _ _ _ _ _ _ _ => i

def quotedText : ChatNode → Option String
  | .mk _ q _ _ _ _ _ _ _ => q

def children : ChatNode → List ChatNode
  | .mk _ _ ch _ _ _ _ _ _ => ch

def x : ChatNode → ℚ
  | .mk _ _ _ a _ _ _ _ _ => a

def y : ChatNode → ℚ
  | .mk _ _ _ _ b _ _ _ _ => b

def height : ChatNode → ℚ
  | .mk _ _ _ _ _ h _ _ _ => h

def manualPosition : ChatNode → Bool
  | .mk _ _ _ _ _ _ m _ _ => m

def conversation : ChatNode → List ChatMessage
  | .mk _ _ _ _ _ _ _ c _ => c

def isThinking : ChatNode → Bool
  | .mk _ _ _ _ _ _ _ _ t => t

end ChatNode

/-- The flat projection of a node used by `flatChats` (everything except
`children`). -/
structure FlatChat : Type where
  id : Nat
  x : ℚ
  y : ℚ
  height : ℚ
  quotedText : Option String
  conversation : List ChatMessage
  isThinking : Bool
deriving DecidableEq, Repr

/-- `flatten` from the `flatChats` memo: preorder flattening (each node before
its flattened children, then the rest of the list). -/
def flatten : List ChatNode → List FlatChat
  | [] => []
  | ChatNode.mk i q ch px py h _ conv t :: ns =>
    FlatChat.mk i px py h q conv t :: (flatten ch ++ flatten ns)

/-- The ids of a forest in preorder. -/
def idsOf : List ChatNode → List Nat
  | [] => []
  | ChatNode.mk i _ ch _ _ _ _ _ _ :: ns => i :: (idsOf ch ++ idsOf ns)

/-- The ids of a single subtree. -/
def subtreeIds (n : ChatNode) : List Nat :=
  idsOf [n]

/-- `findNode` from `handleNewMessage`: depth-first search by id, current node
before its children. -/
def findNode : List ChatNode → Nat → Option ChatNode
  | [], _ => none
  | ChatNode.mk i q ch px py h m conv t :: ns, cid =>
    if i = cid then some (ChatNode.mk i q ch px py h m conv t)
    else
      match findNode ch cid with
      | some n => some n
      | none => findNode ns cid

/-- Index path into a forest: `getAt ns [i, j, k]` is the `k`-th child of the
`j`-th child of the `i`-th root. -/
def getAt : List ChatNode → List Nat → Option ChatNode
  | _, [] => none
  | ns, i :: p =>
    match ns.get? i with
    | none => none
    | some n =>
      match p with
      | [] => some n
      | _ :: _ => getAt n.children p

/-- `removeNode` from `handleDelete`: filter out every node carrying the id at
each level (a removed node's subtree is discarded with it), recursing into the
children of the surviving nodes.  The source's `filter`-then-`map` pair is
fused into one recursion. -/
def removeNode (cid : Nat) : List ChatNode → List ChatNode
  | [] => []
  | ChatNode.mk i q ch px py h m conv t :: ns =>
    if i = cid then removeNode cid ns
    else ChatNode.mk i q (removeNode cid ch) px py h m conv t :: removeNode cid ns

/-- `moveChildren` from `handleChatPositionChange`: translate a whole forest
by `(dx, dy)`. -/
def moveChildren (dx dy : ℚ) : List ChatNode → List ChatNode
  | [] => []
  | ChatNode.mk i q ch px py h m conv t :: ns =>
    ChatNode.mk i q (moveChildren dx dy ch) (px + dx) (py + dy) h m conv t ::
      moveChildren dx dy ns

/-- `updatePosition` from `handleChatPositionChange`: the matched node is
moved to `(px, py)`, marked manually positioned, and its descendants are
translated by the same delta; the recursion does not descend into the matched
node's children looking for further matches. -/
def updatePosition (cid : Nat) (px py : ℚ) : List ChatNode → List ChatNode
  | [] => []
  | ChatNode.mk i q ch nx ny h m conv t :: ns =>
    if i = cid then
      ChatNode.mk i q (moveChildren (px - nx) (py - ny) ch) px py h true conv t ::
        updatePosition cid px py ns
    else
      ChatNode.mk i q (updatePosition cid px py ch) nx ny h m conv t ::
        updatePosition cid px py ns

/-- `addAssistantPlaceholder` from `handleNewMessage`: append an
empty-content assistant message to the matched node and clear its thinking
flag; the matched node's children are returned untouched. -/
def addAssistantPlaceholder (cid : Nat) : List ChatNode → List ChatNode
  | [] => []
  | ChatNode.mk i q ch px py h m conv t :: ns =>
    if i = cid then
      ChatNode.mk i q ch px py h m (conv ++ [ChatMessage.mk Role.assistant ""]) false ::
        addAssistantPlaceholder cid ns
    else
      ChatNode.mk i q (addAssistantPlaceholder cid ch) px py h m conv t ::
        addAssistantPlaceholder cid ns

/-- `appendResponseChunk` from `handleNewMessage`'s read loop: when the
matched node's trailing message is an assistant message, append the chunk to
its content (children untouched); in every other case recurse into the
children. -/
def appendResponseChunk (cid : Nat) (chunk : String) : List ChatNode → List ChatNode
  | [] => []
  | ChatNode.mk i q ch px py h m conv t :: ns =>
    if i = cid then
      match conv.getLast? with
      | some lm =>
        if lm.role = Role.assistant then
          ChatNode.mk i q ch px py h m
              (conv.dropLast ++ [ChatMessage.mk Role.assistant (lm.content ++ chunk)]) t ::
            appendResponseChunk cid chunk ns
        else
          ChatNode.mk i q (appendResponseChunk cid chunk ch) px py h m conv t ::
            appendResponseChunk cid chunk ns
      | none =>
        ChatNode.mk i q (appendResponseChunk cid chunk ch) px py h m conv t ::
          appendResponseChunk cid chunk ns
    else
      ChatNode.mk i q (appendResponseChunk cid chunk ch) px py h m conv t ::
        appendResponseChunk cid chunk ns

/-- The initial `chatTree` state: a single root node. -/
def initialChatTree : List ChatNode :=
  [ChatNode.mk 1 none [] 725 500 200 false [] false]

/-- The guard on the delete control in `DraggableChat`: the button is rendered
iff `!isRoot && onDelete`. -/
def deleteButtonRendered (isRoot : Bool) (hasOnDelete : Bool) : Bool :=
  !isRoot && hasOnDelete

/-! ## Layout engine -/

def CARD_WIDTH : ℚ := 700

def HORIZONTAL_SPACING : ℚ := 100

def VERTICAL_SPACING : ℚ := 80

/-- `heights.reduce((acc, h) => acc + h + VERTICAL_SPACING, -VERTICAL_SPACING)`:
sum of the entries plus a vertical gap between consecutive ones. -/
def heightsFold (hs : List ℚ) : ℚ :=
  hs.foldl (fun acc h => acc + h + VERTICAL_SPACING) (-VERTICAL_SPACING)

/-- `widths.reduce((acc, w) => acc + w + HORIZONTAL_SPACING, -HORIZONTAL_SPACING)`. -/
def widthsFold (ws : List ℚ) : ℚ :=
  ws.foldl (fun acc w => acc + w + HORIZONTAL_SPACING) (-HORIZONTAL_SPACING)

mutual

/-- `getSubtreeHeight` from `layoutHorizontal`: a leaf contributes its own
height, an inner node the larger of its own height and its children's stacked
subtree heights. -/
def getSubtreeHeight : ChatNode → ℚ
  | .mk _ _ [] _ _ h _ _ _ => h
  | .mk _ _ (c :: cs) _ _ h _ _ _ =>
    max h (heightsFold (subtreeHeightList (c :: cs)))

/-- `children.map(getSubtreeHeight)`. -/
def subtreeHeightList : List ChatNode → List ℚ
  | [] => []
  | c :: cs => getSubtreeHeight c :: subtreeHeightList cs

end

mutual

/-- `getSubtreeWidth` from `layoutVertical`: a leaf contributes the fixed card
width, an inner node its children's stacked subtree widths. -/
def getSubtreeWidth : ChatNode → ℚ
  | .mk _ _ [] _ _ _ _ _ _ => CARD_WIDTH
  | .mk _ _ (c :: cs) _ _ _ _ _ _ =>
    widthsFold (subtreeWidthList (c :: cs))

/-- `children.map(getSubtreeWidth)`. -/
def subtreeWidthList : List ChatNode → List ℚ
  | [] => []
  | c :: cs => getSubtreeWidth c :: subtreeWidthList cs

end

/-- The per-child move test shared by both layout orientations:
`if (!child.manualPosition && (child.x !== newX || child.y !== newY))` the
child is moved to `(newX, newY)` and the change flag raised; the returned
triple is the child's resulting position and that flag. -/
def assignChildPosition (c : ChatNode) (newX newY : ℚ) : ℚ × ℚ × Bool :=
  let moved := !c.manualPosition && (!(decide (c.x = newX)) || !(decide (c.y = newY)))
  (if moved then newX else c.x, if moved then newY else c.y, moved)

mutual

/-- `positionChildren` from `layoutHorizontal`, applied to a node whose own
position has been fixed to `(nx, ny)` by its caller: the node's children are
stacked to the right of it, and the returned flag records whether any
descendant actually moved. -/
def positionChildrenH : ChatNode → ℚ → ℚ → ChatNode × Bool
  | ChatNode.mk i q [] _ _ h m conv t, nx, ny =>
    (ChatNode.mk i q [] nx ny h m conv t, false)
  | ChatNode.mk i q (c :: cs) _ _ h m conv t, nx, ny =>
    let totalHeight := heightsFold (subtreeHeightList (c :: cs))
    let yOffset := ny + h / 2 - totalHeight / 2
    let r := placeSiblingsH nx yOffset (c :: cs)
    (ChatNode.mk i q r.1 nx ny h m conv t, r.2)

/-- The `children.forEach` loop of `layoutHorizontal.positionChildren`:
`px` is the parent's x, `yOffset` the running top of the next child's subtree
slot.  A non-manual child whose position differs from the computed slot is
moved (raising the change flag); the recursion then lays out the child's own
children from the position it ended up with. -/
def placeSiblingsH : ℚ → ℚ → List ChatNode → List ChatNode × Bool
  | _, _, [] => ([], false)
  | px, yOffset, c :: cs =>
    let childHeight := getSubtreeHeight c
    let newX := px + CARD_WIDTH + HORIZONTAL_SPACING
    let newY := yOffset + childHeight / 2 - c.height / 2
    let a := assignChildPosition c newX newY
    let r1 := positionChildrenH c a.1 a.2.1
    let r2 := placeSiblingsH px (yOffset + childHeight + VERTICAL_SPACING) cs
    (r1.1 :: r2.1, (a.2.2 || r1.2) || r2.2)

end

mutual

/-- `positionChildren` from `layoutVertical`, applied to a node whose own
position has been fixed to `(nx, ny)` by its caller. -/
def positionChildrenV : ChatNode → ℚ → ℚ → ChatNode × Bool
  | ChatNode.mk i q [] _ _ h m conv t, nx, ny =>
    (ChatNode.mk i q [] nx ny h m conv t, false)
  | ChatNode.mk i q (c :: cs) _ _ h m conv t, nx, ny =>
    let totalWidth := widthsFold (subtreeWidthList (c :: cs))
    let xOffset := nx + CARD_WIDTH / 2 - totalWidth / 2
    let r := placeSiblingsV (ny + h + VERTICAL_SPACING) xOffset (c :: cs)
    (ChatNode.mk i q r.1 nx ny h m conv t, r.2)

/-- The `children.forEach` loop of `layoutVertical.positionChildren`:
`cy0` is the common y of the child row, `xOffset` the running left edge of the
next child's subtree slot. -/
def placeSiblingsV : ℚ → ℚ → List ChatNode → List ChatNode × Bool
  | _, _, [] => ([], false)
  | cy0, xOffset, c :: cs =>
    let childWidth := getSubtreeWidth c
    let newX := xOffset + childWidth / 2 - CARD_WIDTH / 2
    let newY := cy0
    let a := assignChildPosition c newX newY
    let r1 := positionChildrenV c a.1 a.2.1
    let r2 := placeSiblingsV cy0 (xOffset + childWidth + HORIZONTAL_SPACING) cs
    (r1.1 :: r2.1, (a.2.2 || r1.2) || r2.2)

end

/-- `layoutHorizontal(nodes)`: every root keeps its own position and has its
subtree laid out; the flag is the accumulated `hasChanges`. -/
def layoutHorizontal : List ChatNode → List ChatNode × Bool
  | [] => ([], false)
  | r :: rs =>
    let a := positionChildrenH r r.x r.y
    let b := layoutHorizontal rs
    (a.1 :: b.1, a.2 || b.2)

/-- `layoutVertical(nodes)`. -/
def layoutVertical : List ChatNode → List ChatNode × Bool
  | [] => ([], false)
  | r :: rs =>
    let a := positionChildrenV r r.x r.y
    let b := layoutVertical rs
    (a.1 :: b.1, a.2 || b.2)

/-- The `layoutMode` state (`"horizontal" | "vertical"`). -/
inductive LayoutMode : Type where
  | horizontal : LayoutMode
  | vertical : LayoutMode
deriving DecidableEq, Repr

/-- The mode dispatch at the end of the layout `useLayoutEffect`. -/
def runLayout : LayoutMode → List ChatNode → List ChatNode × Bool
  | .horizontal, t => layoutHorizontal t
  | .vertical, t => layoutVertical t

/-- Sum of the first `i` entries of a size list, a gap after each: the offset
of the `i`-th sibling slot from the first one. -/
def stackOffset (gap : ℚ) : List ℚ → ℕ → ℚ
  | _, 0 => 0
  | [], _ + 1 => 0
  | s :: ss, i + 1 => s + gap + stackOffset gap ss i

/-- A node's children sit where `layoutHorizontal` puts them: every non-manual
child is one card width plus the horizontal gap to the right of the node and
vertically centered in its slot of the stack of child subtrees, the stack
itself centered on the node. -/
def placedH (n : ChatNode) : Prop :=
  ∀ i (hi : i < n.children.length),
    (n.children.get ⟨i, hi⟩).manualPosition = false →
    (n.children.get ⟨i, hi⟩).x = n.x + CARD_WIDTH + HORIZONTAL_SPACING ∧
    (n.children.get ⟨i, hi⟩).y =
      n.y + n.height / 2 - heightsFold (subtreeHeightList n.children) / 2 +
        stackOffset VERTICAL_SPACING (subtreeHeightList n.children) i +
        getSubtreeHeight (n.children.get ⟨i, hi⟩) / 2 - (n.children.get ⟨i, hi⟩).height / 2

/-- A node's children sit where `layoutVertical` puts them. -/
def placedV (n : ChatNode) : Prop :=
  ∀ i (hi : i < n.children.length),
    (n.children.get ⟨i, hi⟩).manualPosition = false →
    (n.children.get ⟨i, hi⟩).y = n.y + n.height + VERTICAL_SPACING ∧
    (n.children.get ⟨i, hi⟩).x =
      n.x + CARD_WIDTH / 2 - widthsFold (subtreeWidthList n.children) / 2 +
        stackOffset HORIZONTAL_SPACING (subtreeWidthList n.children) i +
        getSubtreeWidth (n.children.get ⟨i, hi⟩) / 2 - CARD_WIDTH / 2

/-! ## `/api/chat` route variants -/

/-- A JavaScript value, as far as the routes' truthiness test on the parsed
`prompt` field distinguishes one. -/
inductive JsVal : Type where
  | vundefined : JsVal
  | vnull : JsVal
  | vbool (b : Bool) : JsVal
  | vnum (q : ℚ) : JsVal
  | vstr (s : String) : JsVal
  | vobj : JsVal
deriving DecidableEq, Repr

/-- JavaScript truthiness (`NaN` is not representable in `ℚ` and is ignored). -/
def jsTruthy : JsVal → Bool
  | .vundefined => false
  | .vnull => false
  | .vbool b => b
  | .vnum q => !(decide (q = 0))
  | .vstr s => !s.isEmpty
  | .vobj => true

/-- Whether a value is a string (for the claim that non-string truthy prompts
pass the `!prompt` validation). -/
def jsIsString : JsVal → Bool
  | .vstr _ => true
  | _ => false

/-- What a response body of the routes contains, abstracting the stream. -/
inductive RespBody : Type where
  | errorJson (msg : String) : RespBody
  | errorText (msg : String) : RespBody
  | markdownStream : RespBody
deriving DecidableEq, Repr

/-- An HTTP response as far as status and body kind matter. -/
structure Resp : Type where
  status : Nat
  body : RespBody
deriving DecidableEq, Repr

/-- How the try-block of the plain variant can end once validation passed:
the upstream call streams back, throws an `OpenAI.APIError`, or throws
anything else. -/
inductive PlainOutcome : Type where
  | streamOk : PlainOutcome
  | apiError (status : Nat) (message : String) : PlainOutcome
  | otherError : PlainOutcome
deriving DecidableEq, Repr

/-- The plain `/api/chat` variant: `400` on a falsy prompt, a streamed `200`
on success; the catch block passes an `OpenAI.APIError`'s own status and
message through and collapses only other exceptions to a generic `500`.
The handler contains no credential check of its own. -/
def plainChatPOST (prompt : JsVal) (outcome : PlainOutcome) : Resp :=
  if !(jsTruthy prompt) then Resp.mk 400 (RespBody.errorJson "Prompt is required")
  else
    match outcome with
    | .streamOk => Resp.mk 200 RespBody.markdownStream
    | .apiError st msg => Resp.mk st (RespBody.errorText msg)
    | .otherError => Resp.mk 500 (RespBody.errorText "Internal Server Error")

/-- How the try-block of the tool-augmented variant can end once validation
passed. -/
inductive ToolOutcome : Type where
  | streamOk : ToolOutcome
  | anyError : ToolOutcome
deriving DecidableEq, Repr

/-- The tool-augmented `/api/chat` variant: `400` on a falsy prompt, a
streamed `200` on success, and a single generic `500` for every caught
failure. -/
def toolChatPOST (prompt : JsVal) (outcome : ToolOutcome) : Resp :=
  if !(jsTruthy prompt) then Resp.mk 400 (RespBody.errorJson "Prompt is required")
  else
    match outcome with
    | .streamOk => Resp.mk 200 RespBody.markdownStream
    | .anyError => Resp.mk 500 (RespBody.errorText "Internal Server Error")

/-- What the search tool's `execute` hands back to the model. -/
inductive SearchToolResult : Type where
  | resultError (msg : String) : SearchToolResult
  | resultAnswer (content : String) : SearchToolResult
deriving DecidableEq, Repr

/-- `search.execute` of the tool-augmented variant: a missing
`PARALLEL_API_KEY` or a non-ok upstream response produce an error *tool
result* (the surrounding request still streams a normal `200` response),
never an HTTP failure of their own. -/
def searchExecute (apiKeyPresent : Bool) (respOk : Bool) (respStatus : Nat)
    (content : String) : SearchToolResult :=
  if !apiKeyPresent then SearchToolResult.resultError "parallel api key is missing"
  else if !respOk then SearchToolResult.resultError ("parallel error " ++ toString respStatus)
  else SearchToolResult.resultAnswer content

/-! ## Route claims (C10, C8) -/

/-- C10: in both `/api/chat` variants the prompt check is a falsiness test:
a present-but-empty string prompt is rejected with `400`, while any truthy
non-string prompt value passes validation and the request proceeds. -/
theorem chat_prompt_validation_is_falsiness :
    (∀ o, plainChatPOST (JsVal.vstr "") o =
      Resp.mk 400 (RespBody.errorJson "Prompt is required")) ∧
    (∀ o, toolChatPOST (JsVal.vstr "") o =
      Resp.mk 400 (RespBody.errorJson "Prompt is required")) ∧
    (∀ v, jsTruthy v = true → jsIsString v = false →
      (plainChatPOST v PlainOutcome.streamOk).status = 200 ∧
      (toolChatPOST v ToolOutcome.streamOk).status = 200) := by
  refine ⟨fun o => rfl, fun o => rfl, ?_⟩
  intro v hv _
  simp [plainChatPOST, toolChatPOST, hv]

/-- Witness for C10 at the truthy non-string prompt `{}`. -/
theorem chat_prompt_validation_witness :
    jsTruthy JsVal.vobj = true ∧ jsIsString JsVal.vobj = false ∧
    (plainChatPOST JsVal.vobj PlainOutcome.streamOk).status = 200 :=
  ⟨by decide, by decide,
    (chat_prompt_validation_is_falsiness.2.2 JsVal.vobj (by decide) (by decide)).1⟩

/-- C8 counterexample: the plain variant passes an upstream `OpenAI.APIError`
status through instead of collapsing it to a generic `500`, and the tool
variant reports a missing search credential as an error tool-result inside a
normal `200` stream rather than as a `500` response. -/
theorem chat_error_collapse_counterexample :
    (plainChatPOST (JsVal.vstr "hi") (PlainOutcome.apiError 429 "Rate limited")).status = 429 ∧
    ¬((plainChatPOST (JsVal.vstr "hi") (PlainOutcome.apiError 429 "Rate limited")).status = 500) ∧
    searchExecute false true 200 "answer" =
      SearchToolResult.resultError "parallel api key is missing" ∧
    (toolChatPOST (JsVal.vstr "hi") ToolOutcome.streamOk).status = 200 := by
  refine ⟨rfl, by decide, rfl, rfl⟩

/-- C8 amended: both variants return `400` when the prompt is absent; the
tool variant collapses every caught failure to a generic `500`; the plain
variant passes an `OpenAI.APIError`'s status and message through and collapses
only other exceptions to a generic `500`; a missing search credential in the
tool variant yields an error tool-result (the response itself still streams),
and neither handler turns a missing credential into its own `500` check. -/
theorem chat_error_paths_amended :
    (∀ o, plainChatPOST JsVal.vundefined o =
      Resp.mk 400 (RespBody.errorJson "Prompt is required")) ∧
    (∀ o, toolChatPOST JsVal.vundefined o =
      Resp.mk 400 (RespBody.errorJson "Prompt is required")) ∧
    (∀ p, jsTruthy p = true → toolChatPOST p ToolOutcome.anyError =
      Resp.mk 500 (RespBody.errorText "Internal Server Error")) ∧
    (∀ p st msg, jsTruthy p = true →
      plainChatPOST p (PlainOutcome.apiError st msg) = Resp.mk st (RespBody.errorText msg)) ∧
    (∀ p, jsTruthy p = true → plainChatPOST p PlainOutcome.otherError =
      Resp.mk 500 (RespBody.errorText "Internal Server Error")) ∧
    (∀ respOk respStatus content, searchExecute false respOk respStatus content =
      SearchToolResult.resultError "parallel api key is missing") := by
  refine ⟨fun o => rfl, fun o => rfl, ?_, ?_, ?_, fun _ _ _ => rfl⟩
  · intro p hp
    simp [toolChatPOST, hp]
  · intro p st msg hp
    simp [plainChatPOST, hp]
  · intro p hp
    simp [plainChatPOST, hp]

/-- Witness for the amended C8 at concrete prompts and outcomes. -/
theorem chat_error_paths_amended_witness :
    toolChatPOST (JsVal.vstr "hello") ToolOutcome.anyError =
      Resp.mk 500 (RespBody.errorText "Internal Server Error") ∧
    plainChatPOST (JsVal.vstr "hello") (PlainOutcome.apiError 401 "bad key") =
      Resp.mk 401 (RespBody.errorText "bad key") :=
  ⟨chat_error_paths_amended.2.2.1 (JsVal.vstr "hello") (by decide),
    chat_error_paths_amended.2.2.2.1 (JsVal.vstr "hello") 401 "bad key" (by decide)⟩

/-! ## Root protection (C7) -/

/-- C7 counterexample: the initial tree consists of exactly the root (id 1),
and `removeNode` applied with the root's id does remove it — the mutation
layer itself has no root guard. -/
theorem root_delete_counterexample :
    idsOf initialChatTree = [1] ∧ removeNode 1 initialChatTree = [] := by
  constructor
  · simp [idsOf, initialChatTree]
  · simp [removeNode, initialChatTree]

/-- C7 amended: exactly one root node exists initially; the root is protected
only by the caller — the delete control is never rendered for the root node,
though it is for non-root nodes — while the `deleteNode` mutation itself,
applied with the root's id, removes the root from the tree. -/
theorem root_protection_amended :
    initialChatTree.length = 1 ∧ idsOf initialChatTree = [1] ∧
    (∀ hasOnDelete, deleteButtonRendered true hasOnDelete = false) ∧
    deleteButtonRendered false true = true ∧
    removeNode 1 initialChatTree = [] := by
  refine ⟨rfl, ?_, fun _ => rfl, rfl, ?_⟩
  · simp [idsOf, initialChatTree]
  · simp [removeNode, initialChatTree]

/-! ## `updatePosition` idempotence (C6) -/

/-- Translating a forest by a zero delta rebuilds it unchanged. -/
theorem moveChildren_zero : ∀ ns : List ChatNode, moveChildren 0 0 ns = ns
  | [] => by simp [moveChildren]
  | ChatNode.mk _ _ ch _ _ _ _ _ _ :: ns => by
    simp [moveChildren, moveChildren_zero ch, moveChildren_zero ns]

/-- Applying `updatePosition` twice with the same arguments is the same as
once: the second pass finds the target already at `(px, py)`, so it translates
the target's subtree by a zero delta and rebuilds every other node as is. -/
theorem updatePosition_updatePosition :
    ∀ (ns : List ChatNode) (cid : Nat) (px py : ℚ),
      updatePosition cid px py (updatePosition cid px py ns) = updatePosition cid px py ns
  | [], _, _, _ => by simp [updatePosition]
  | ChatNode.mk i _ ch _ _ _ _ _ _ :: ns, cid, px, py => by
    by_cases hic : i = cid
    · simp [updatePosition, hic, sub_self, moveChildren_zero,
        updatePosition_updatePosition ns cid px py]
    · simp [updatePosition, hic, updatePosition_updatePosition ch cid px py,
        updatePosition_updatePosition ns cid px py]

/-- C6: `updatePosition` is idempotent — for any tree containing the id,
applying it twice with the same id and coordinates yields the same tree value
as applying it once. -/
theorem updatePosition_idempotent (t : List ChatNode) (cid : Nat) (px py : ℚ)
    (_hmem : cid ∈ idsOf t) :
    updatePosition cid px py (updatePosition cid px py t) = updatePosition cid px py t :=
  updatePosition_updatePosition t cid px py

/-- Witness for C6 on the initial tree. -/
theorem updatePosition_idempotent_witness :
    1 ∈ idsOf initialChatTree ∧
    updatePosition 1 10 20 (updatePosition 1 10 20 initialChatTree) =
      updatePosition 1 10 20 initialChatTree :=
  ⟨by simp [idsOf, initialChatTree],
    updatePosition_idempotent initialChatTree 1 10 20 (by simp [idsOf, initialChatTree])⟩

/-! ## Deletion removes exactly the subtree (C5) -/

/-- Searching an id that is absent from a forest fails. -/
theorem findNode_none : ∀ (ns : List ChatNode) (cid : Nat),
    findNode ns cid = none → cid ∉ idsOf ns
  | [], cid, _ => by simp [idsOf]
  | ChatNode.mk i q ch px py h0 m conv t :: ns, cid, hf => by
    rw [findNode] at hf
    by_cases hic : i = cid
    · rw [if_pos hic] at hf
      exact absurd hf (by simp)
    · rw [if_neg hic] at hf
      cases hch : findNode ch cid with
      | some n2 => rw [hch] at hf; exact absurd hf (by simp)
      | none =>
        rw [hch] at hf
        have h1 := findNode_none ch cid hch
        have h2 := findNode_none ns cid hf
        simp only [idsOf, List.mem_cons, List.mem_append]
        rintro (rfl | hm | hm)
        · exact hic rfl
        · exact h1 hm
        · exact h2 hm

/-- A found node carries the searched id and its subtree ids all occur in the
forest. -/
theorem findNode_spec : ∀ (ns : List ChatNode) (cid : Nat) (n : ChatNode),
    findNode ns cid = some n → n.id = cid ∧ subtreeIds n ⊆ idsOf ns
  | [], cid, n, hf => by simp [findNode] at hf
  | ChatNode.mk i q ch px py h0 m conv t :: ns, cid, n, hf => by
    rw [findNode] at hf
    by_cases hic : i = cid
    · rw [if_pos hic] at hf
      have hn : ChatNode.mk i q ch px py h0 m conv t = n := by
        injection hf
      subst hn
      refine ⟨by simp [ChatNode.id, hic], ?_⟩
      intro a ha
      simp only [subtreeIds, idsOf, List.append_nil, List.mem_cons,
        List.mem_append] at ha
      simp only [idsOf, List.mem_cons, List.mem_append]
      rcases ha with rfl | ha
      · exact Or.inl rfl
      · exact Or.inr (Or.inl (by simpa using ha))
    · rw [if_neg hic] at hf
      cases hch : findNode ch cid with
      | some n2 =>
        rw [hch] at hf
        have hn : n2 = n := by injection hf
        subst hn
        have ih := findNode_spec ch cid n2 hch
        refine ⟨ih.1, ?_⟩
        intro a ha
        have ha2 := ih.2 ha
        simp only [idsOf, List.mem_cons, List.mem_append]
        exact Or.inr (Or.inl ha2)
      | none =>
        rw [hch] at hf
        have ih := findNode_spec ns cid n hf
        refine ⟨ih.1, ?_⟩
        intro a ha
        have ha2 := ih.2 ha
        simp only [idsOf, List.mem_cons, List.mem_append]
        exact Or.inr (Or.inr ha2)

/-- Removing an absent id rebuilds the forest unchanged. -/
theorem removeNode_not_mem : ∀ (cid : Nat) (ns : List ChatNode),
    cid ∉ idsOf ns → removeNode cid ns = ns
  | _, [], _ => by simp [removeNode]
  | cid, ChatNode.mk i q ch px py h0 m conv t :: ns, hmem => by
    simp only [idsOf, List.mem_cons, List.mem_append] at hmem
    push_neg at hmem
    rw [removeNode, if_neg (fun he => hmem.1 he.symm)]
    rw [removeNode_not_mem cid ch hmem.2.1, removeNode_not_mem cid ns hmem.2.2]

/-- Under unique ids, `removeNode` cuts exactly the found node's flattened
subtree out of the preorder flattening, leaving everything around it. -/
theorem flatten_removeNode : ∀ (ns : List ChatNode) (cid : Nat) (n : ChatNode),
    (idsOf ns).Nodup → findNode ns cid = some n →
    ∃ A B, flatten ns = A ++ flatten [n] ++ B ∧ flatten (removeNode cid ns) = A ++ B
  | [], cid, n, _, hf => by simp [findNode] at hf
  | ChatNode.mk i q ch px py h0 m conv t :: ns, cid, n, hnd, hf => by
    rw [findNode] at hf
    simp only [idsOf, List.nodup_cons] at hnd
    have hndch : (idsOf ch).Nodup := hnd.2.of_append_left
    have hndns : (idsOf ns).Nodup := hnd.2.of_append_right
    have hdisj : (idsOf ch).Disjoint (idsOf ns) := List.disjoint_of_nodup_append hnd.2
    by_cases hic : i = cid
    · rw [if_pos hic] at hf
      have hn : ChatNode.mk i q ch px py h0 m conv t = n := by injection hf
      subst hn
      refine ⟨[], flatten ns, ?_, ?_⟩
      · simp [flatten]
      · rw [removeNode, if_pos hic]
        have : cid ∉ idsOf ns := by
          intro hm
          exact hnd.1 (by simpa [hic] using List.mem_append_right (idsOf ch) hm)
        rw [removeNode_not_mem cid ns this]
        simp
    · rw [if_neg hic] at hf
      cases hch : findNode ch cid with
      | some n2 =>
        rw [hch] at hf
        have hn : n2 = n := by injection hf
        subst hn
        obtain ⟨A, B, hAB1, hAB2⟩ := flatten_removeNode ch cid n2 hndch hch
        have hcid_ch : cid ∈ idsOf ch := by
          have := (findNode_spec ch cid n2 hch).2
          have hid : n2.id ∈ subtreeIds n2 := by
            cases n2 with
            | mk i2 q2 ch2 x2 y2 h2 m2 conv2 t2 => simp [subtreeIds, idsOf, ChatNode.id]
          exact this ((findNode_spec ch cid n2 hch).1 ▸ hid)
        have hnot_ns : cid ∉ idsOf ns := fun hm => hdisj hcid_ch hm
        refine ⟨FlatChat.mk i px py h0 q conv t :: A, B ++ flatten ns, ?_, ?_⟩
        · simp only [flatten, hAB1]
          simp
        · rw [removeNode, if_neg hic, removeNode_not_mem cid ns hnot_ns]
          simp only [flatten, hAB2]
          simp
      | none =>
        rw [hch] at hf
        obtain ⟨A, B, hAB1, hAB2⟩ := flatten_removeNode ns cid n hndns hf
        have hnot_ch : cid ∉ idsOf ch := findNode_none ch cid hch
        refine ⟨FlatChat.mk i px py h0 q conv t :: flatten ch ++ A, B, ?_, ?_⟩
        · simp only [flatten, hAB1]
          simp
        · rw [removeNode, if_neg hic, removeNode_not_mem cid ch hnot_ch]
          simp only [flatten, hAB2]
          simp

/-- C5: with unique ids, deleting a node removes it together with its entire
flattened subtree and nothing else, so a node with exactly two descendants
takes exactly three entries out of the flattened list. -/
theorem deleteNode_removes_subtree (t : List ChatNode) (cid : Nat) (n : ChatNode)
    (hnodup : (idsOf t).Nodup) (hfind : findNode t cid = some n)
    (hdesc : (flatten n.children).length = 2) :
    (∃ A B, flatten t = A ++ flatten [n] ++ B ∧ flatten (removeNode cid t) = A ++ B) ∧
    (flatten (removeNode cid t)).length + 3 = (flatten t).length := by
  obtain ⟨A, B, h1, h2⟩ := flatten_removeNode t cid n hnodup hfind
  have hlen : (flatten [n]).length = 3 := by
    cases n with
    | mk i q ch px py h0 m conv tk =>
      simp only [ChatNode.children] at hdesc
      simp [flatten, hdesc]
  refine ⟨⟨A, B, h1, h2⟩, ?_⟩
  rw [h1, h2]
  simp [hlen]
  omega

/-- Witness tree for C5: the root has one child (id 2) that has exactly the
two descendants 3 and 4. -/
def c5SampleTree : List ChatNode :=
  [ChatNode.mk 1 none
    [ChatNode.mk 2 none
      [ChatNode.mk 3 none [] 0 0 150 false [] false,
        ChatNode.mk 4 none [] 0 0 150 false [] false]
      0 0 150 false [] false]
    725 500 200 false [] false]

/-- Witness for C5: deleting node 2 of the sample tree shrinks the flattened
list by exactly three. -/
theorem deleteNode_removes_subtree_witness :
    (flatten (removeNode 2 c5SampleTree)).length + 3 = (flatten c5SampleTree).length :=
  (deleteNode_removes_subtree c5SampleTree 2
    (ChatNode.mk 2 none
      [ChatNode.mk 3 none [] 0 0 150 false [] false,
        ChatNode.mk 4 none [] 0 0 150 false [] false]
      0 0 150 false [] false)
    (by simp [idsOf, c5SampleTree])
    (by simp [findNode, c5SampleTree])
    (by simp [flatten, ChatNode.children])).2

/-! ## Streaming append order (C9) -/

/-- Replace a node's conversation, keeping every other field. -/
def setConversation : ChatNode → List ChatMessage → ChatNode
  | .mk i q ch px py h m _ t, conv => .mk i q ch px py h m conv t

/-- The `while (!done)` read loop of `handleNewMessage`: deliver the chunks
one at a time, in order, each through `appendResponseChunk`. -/
def applyChunks (cid : Nat) (chunks : List String) (t : List ChatNode) : List ChatNode :=
  chunks.foldl (fun tr ck => appendResponseChunk cid ck tr) t

/-- The concatenation of a chunk list in delivery order. -/
def concatChunks : List String → String
  | [] => ""
  | c :: rest => c ++ concatChunks rest

/-- An id absent from a forest is found nowhere by `findNode`. -/
theorem findNode_of_not_mem : ∀ (ns : List ChatNode) (cid : Nat),
    cid ∉ idsOf ns → findNode ns cid = none
  | [], _, _ => by simp [findNode]
  | ChatNode.mk i q ch px py h0 m conv t :: ns, cid, hmem => by
    simp only [idsOf, List.mem_cons, List.mem_append] at hmem
    push_neg at hmem
    rw [findNode, if_neg (fun he => hmem.1 he.symm),
      findNode_of_not_mem ch cid hmem.2.1, findNode_of_not_mem ns cid hmem.2.2]

/-- `appendResponseChunk` never changes the preorder id list. -/
theorem idsOf_appendResponseChunk : ∀ (ns : List ChatNode) (cid : Nat) (chunk : String),
    idsOf (appendResponseChunk cid chunk ns) = idsOf ns
  | [], _, _ => by simp [appendResponseChunk]
  | ChatNode.mk i q ch px py h0 m conv t :: ns, cid, chunk => by
    by_cases hic : i = cid
    · cases hl : conv.getLast? with
      | some lm =>
        by_cases hrole : lm.role = Role.assistant
        · simp [appendResponseChunk, hic, hl, hrole, idsOf,
            idsOf_appendResponseChunk ns cid chunk]
        · simp [appendResponseChunk, hic, hl, hrole, idsOf,
            idsOf_appendResponseChunk ch cid chunk, idsOf_appendResponseChunk ns cid chunk]
      | none =>
        simp [appendResponseChunk, hic, hl, idsOf,
          idsOf_appendResponseChunk ch cid chunk, idsOf_appendResponseChunk ns cid chunk]
    · simp [appendResponseChunk, hic, idsOf,
        idsOf_appendResponseChunk ch cid chunk, idsOf_appendResponseChunk ns cid chunk]

/-- One chunk delivery: under unique ids, when the target node's trailing
message is an assistant message, `appendResponseChunk` appends the chunk to
exactly that message's content. -/
theorem appendResponseChunk_findNode :
    ∀ (ns : List ChatNode) (cid : Nat) (chunk : String) (n : ChatNode) (lm : ChatMessage),
    (idsOf ns).Nodup → findNode ns cid = some n →
    n.conversation.getLast? = some lm → lm.role = Role.assistant →
    findNode (appendResponseChunk cid chunk ns) cid =
      some (setConversation n (n.conversation.dropLast ++
        [ChatMessage.mk Role.assistant (lm.content ++ chunk)]))
  | [], cid, chunk, n, lm, _, hf, _, _ => by simp [findNode] at hf
  | ChatNode.mk i q ch px py h0 m conv t :: ns, cid, chunk, n, lm, hnd, hf, hlast, hrole => by
    rw [findNode] at hf
    simp only [idsOf, List.nodup_cons] at hnd
    have hndch : (idsOf ch).Nodup := hnd.2.of_append_left
    have hndns : (idsOf ns).Nodup := hnd.2.of_append_right
    have hdisj : (idsOf ch).Disjoint (idsOf ns) := List.disjoint_of_nodup_append hnd.2
    by_cases hic : i = cid
    · rw [if_pos hic] at hf
      have hn : ChatNode.mk i q ch px py h0 m conv t = n := by injection hf
      subst hn
      simp only [ChatNode.conversation] at hlast
      rw [appendResponseChunk, if_pos hic, hlast]
      dsimp only
      rw [if_pos hrole, findNode, if_pos hic]
      simp [setConversation, ChatNode.conversation]
    · rw [if_neg hic] at hf
      cases hch : findNode ch cid with
      | some n2 =>
        rw [hch] at hf
        have hn : n2 = n := by injection hf
        subst hn
        have hcid_ch : cid ∈ idsOf ch := by
          have hsub := (findNode_spec ch cid n2 hch).2
          have hid : n2.id ∈ subtreeIds n2 := by
            cases n2 with
            | mk i2 q2 ch2 x2 y2 h2 m2 conv2 t2 => simp [subtreeIds, idsOf, ChatNode.id]
          exact hsub ((findNode_spec ch cid n2 hch).1 ▸ hid)
        have ih := appendResponseChunk_findNode ch cid chunk n2 lm hndch hch hlast hrole
        have step : appendResponseChunk cid chunk (ChatNode.mk i q ch px py h0 m conv t :: ns) =
            ChatNode.mk i q (appendResponseChunk cid chunk ch) px py h0 m conv t ::
              appendResponseChunk cid chunk ns := by
          rw [appendResponseChunk, if_neg hic]
        rw [step, findNode, if_neg hic, ih]
      | none =>
        rw [hch] at hf
        have hnot_ch : cid ∉ idsOf ch := findNode_none ch cid hch
        have ih := appendResponseChunk_findNode ns cid chunk n lm hndns hf hlast hrole
        have step : appendResponseChunk cid chunk (ChatNode.mk i q ch px py h0 m conv t :: ns) =
            ChatNode.mk i q (appendResponseChunk cid chunk ch) px py h0 m conv t ::
              appendResponseChunk cid chunk ns := by
          rw [appendResponseChunk, if_neg hic]
        have hnone : findNode (appendResponseChunk cid chunk ch) cid = none := by
          apply findNode_of_not_mem
          rw [idsOf_appendResponseChunk]
          exact hnot_ch
        rw [step, findNode, if_neg hic, hnone, ih]

/-- Replacing a conversation twice keeps only the second replacement. -/
theorem setConversation_setConversation (n : ChatNode) (a b : List ChatMessage) :
    setConversation (setConversation n a) b = setConversation n b := by
  cases n with
  | mk i q ch px py h m conv t => simp [setConversation]

/-- The conversation of a node after `setConversation`. -/
theorem conversation_setConversation (n : ChatNode) (a : List ChatMessage) :
    (setConversation n a).conversation = a := by
  cases n with
  | mk i q ch px py h m conv t => simp [setConversation, ChatNode.conversation]

/-- Replacing a node's conversation by itself is the identity. -/
theorem setConversation_self (n : ChatNode) :
    setConversation n n.conversation = n := by
  cases n with
  | mk i q ch px py h m conv t => simp [setConversation, ChatNode.conversation]

/-- Delivering a chunk list in order appends its in-order concatenation to
the trailing assistant message of the target node. -/
theorem applyChunks_spec :
    ∀ (chunks : List String) (t : List ChatNode) (cid : Nat) (n : ChatNode) (lm : ChatMessage),
    (idsOf t).Nodup → findNode t cid = some n →
    n.conversation.getLast? = some lm → lm.role = Role.assistant →
    findNode (applyChunks cid chunks t) cid =
      some (setConversation n (n.conversation.dropLast ++
        [ChatMessage.mk Role.assistant (lm.content ++ concatChunks chunks)]))
  | [], t, cid, n, lm, _, hf, hlast, hrole => by
    obtain ⟨l2, hl2⟩ := List.getLast?_eq_some_iff.mp hlast
    have hlm : ChatMessage.mk Role.assistant lm.content = lm := by
      cases lm with
      | mk r c => cases hrole; rfl
    simp only [applyChunks, List.foldl_nil, concatChunks, String.append_empty, hlm]
    rw [hl2, List.dropLast_concat]
    rw [← hl2, setConversation_self]
    exact hf
  | c :: rest, t, cid, n, lm, hnd, hf, hlast, hrole => by
    have step := appendResponseChunk_findNode t cid c n lm hnd hf hlast hrole
    have hnd2 : (idsOf (appendResponseChunk cid c t)).Nodup := by
      rw [idsOf_appendResponseChunk]; exact hnd
    have hlast2 : (setConversation n (n.conversation.dropLast ++
        [ChatMessage.mk Role.assistant (lm.content ++ c)])).conversation.getLast? =
        some (ChatMessage.mk Role.assistant (lm.content ++ c)) := by
      rw [conversation_setConversation]
      exact List.getLast?_concat _
    have ih := applyChunks_spec rest (appendResponseChunk cid c t) cid
      (setConversation n (n.conversation.dropLast ++
        [ChatMessage.mk Role.assistant (lm.content ++ c)]))
      (ChatMessage.mk Role.assistant (lm.content ++ c)) hnd2 step hlast2 rfl
    have hfold : applyChunks cid (c :: rest) t =
        applyChunks cid rest (appendResponseChunk cid c t) := by
      simp [applyChunks]
    rw [hfold, ih, setConversation_setConversation, conversation_setConversation,
      List.dropLast_concat]
    simp [concatChunks, String.append_assoc]

/-- C9: stream chunks are appended to the trailing assistant placeholder in
receipt order with no reordering or buffering — delivering a chunk list
appends exactly its in-order concatenation — and after appending an empty
assistant placeholder, delivering `["Hel", "lo", " world"]` leaves the
assistant message reading exactly `"Hello world"`. -/
theorem streaming_chunks_append_in_order :
    (∀ (t : List ChatNode) (cid : Nat) (chunks : List String) (n : ChatNode)
        (lm : ChatMessage),
      (idsOf t).Nodup → findNode t cid = some n →
      n.conversation.getLast? = some lm → lm.role = Role.assistant →
      findNode (applyChunks cid chunks t) cid =
        some (setConversation n (n.conversation.dropLast ++
          [ChatMessage.mk Role.assistant (lm.content ++ concatChunks chunks)]))) ∧
    findNode (applyChunks 1 ["Hel", "lo", " world"] (addAssistantPlaceholder 1
        [ChatNode.mk 1 none [] 725 500 200 false [ChatMessage.mk Role.user "hi"] true])) 1 =
      some (ChatNode.mk 1 none [] 725 500 200 false
        [ChatMessage.mk Role.user "hi", ChatMessage.mk Role.assistant "Hello world"] false) := by
  constructor
  · intro t cid chunks n lm hnd hf hlast hrole
    exact applyChunks_spec chunks t cid n lm hnd hf hlast hrole
  · have hp : addAssistantPlaceholder 1
        [ChatNode.mk 1 none [] 725 500 200 false [ChatMessage.mk Role.user "hi"] true] =
        [ChatNode.mk 1 none [] 725 500 200 false
          [ChatMessage.mk Role.user "hi", ChatMessage.mk Role.assistant ""] false] := by
      simp [addAssistantPlaceholder]
    rw [hp]
    have h := applyChunks_spec ["Hel", "lo", " world"]
      [ChatNode.mk 1 none [] 725 500 200 false
        [ChatMessage.mk Role.user "hi", ChatMessage.mk Role.assistant ""] false] 1
      (ChatNode.mk 1 none [] 725 500 200 false
        [ChatMessage.mk Role.user "hi", ChatMessage.mk Role.assistant ""] false)
      (ChatMessage.mk Role.assistant "")
      (by simp [idsOf]) (by simp [findNode]) rfl rfl
    rw [h]
    rfl

/-- Witness for C9 at a one-node tree with trailing assistant content `"X"`
and chunks `["a", "b"]`. -/
theorem streaming_chunks_append_in_order_witness :
    findNode (applyChunks 7 ["a", "b"]
        [ChatNode.mk 7 none [] 0 0 100 false [ChatMessage.mk Role.assistant "X"] false]) 7 =
      some (ChatNode.mk 7 none [] 0 0 100 false
        [ChatMessage.mk Role.assistant "Xab"] false) := by
  have h := streaming_chunks_append_in_order.1
    [ChatNode.mk 7 none [] 0 0 100 false [ChatMessage.mk Role.assistant "X"] false] 7
    ["a", "b"]
    (ChatNode.mk 7 none [] 0 0 100 false [ChatMessage.mk Role.assistant "X"] false)
    (ChatMessage.mk Role.assistant "X")
    (by simp [idsOf]) (by simp [findNode]) rfl rfl
  rw [h]
  rfl

/-! ## Layout lemmas: horizontal mode -/

/-- A manual child is never moved by the per-child test. -/
theorem assignChildPosition_manual (c : ChatNode) (nx ny : ℚ)
    (hm : c.manualPosition = true) :
    assignChildPosition c nx ny = (c.x, c.y, false) := by
  simp [assignChildPosition, hm]

/-- A non-manual child always ends up exactly at the computed slot. -/
theorem assignChildPosition_nonmanual (c : ChatNode) (nx ny : ℚ)
    (hm : c.manualPosition = false) :
    (assignChildPosition c nx ny).1 = nx ∧ (assignChildPosition c nx ny).2.1 = ny := by
  by_cases hx : c.x = nx <;> by_cases hy : c.y = ny <;>
    simp [assignChildPosition, hm, hx, hy]

/-- A child already sitting at the computed slot is left alone with no flag. -/
theorem assignChildPosition_already (c : ChatNode) (nx ny : ℚ)
    (hx : c.x = nx) (hy : c.y = ny) :
    assignChildPosition c nx ny = (nx, ny, false) := by
  simp [assignChildPosition, hx, hy]

/-- `positionChildrenH` writes the assigned position into the node and keeps
its id, height and manual flag. -/
theorem positionChildrenH_fields (n : ChatNode) (nx ny : ℚ) :
    (positionChildrenH n nx ny).1.x = nx ∧ (positionChildrenH n nx ny).1.y = ny ∧
    (positionChildrenH n nx ny).1.height = n.height ∧
    (positionChildrenH n nx ny).1.manualPosition = n.manualPosition ∧
    (positionChildrenH n nx ny).1.id = n.id := by
  cases n with
  | mk i q ch px py h m conv t =>
    cases ch with
    | nil =>
      simp [positionChildrenH, ChatNode.x, ChatNode.y, ChatNode.height,
        ChatNode.manualPosition, ChatNode.id]
    | cons c cs =>
      simp [positionChildrenH, ChatNode.x, ChatNode.y, ChatNode.height,
        ChatNode.manualPosition, ChatNode.id]

/-- The children of a laid-out leaf. -/
theorem positionChildrenH_children_nil (i : Nat) (q : Option String) (px py h : ℚ)
    (m : Bool) (conv : List ChatMessage) (t : Bool) (nx ny : ℚ) :
    (positionChildrenH (ChatNode.mk i q [] px py h m conv t) nx ny).1.children = [] := by
  simp [positionChildrenH, ChatNode.children]

/-- The children of a laid-out inner node are the laid-out children. -/
theorem positionChildrenH_children_cons (i : Nat) (q : Option String)
    (c : ChatNode) (cs : List ChatNode) (px py h : ℚ) (m : Bool)
    (conv : List ChatMessage) (t : Bool) (nx ny : ℚ) :
    (positionChildrenH (ChatNode.mk i q (c :: cs) px py h m conv t) nx ny).1.children =
      (placeSiblingsH nx
        (ny + h / 2 - heightsFold (subtreeHeightList (c :: cs)) / 2) (c :: cs)).1 := by
  simp [positionChildrenH, ChatNode.children]

/-- Laying out siblings keeps their number. -/
theorem placeSiblingsH_length : ∀ (px yOff : ℚ) (cs : List ChatNode),
    ((placeSiblingsH px yOff cs).1).length = cs.length
  | _, _, [] => by simp [placeSiblingsH]
  | px, yOff, c :: cs => by
    simp [placeSiblingsH,
      placeSiblingsH_length px (yOff + getSubtreeHeight c + VERTICAL_SPACING) cs]

/-- `getSubtreeHeight` only looks at the node's height and the subtree heights
of its children. -/
theorem getSubtreeHeight_mk_eq {i : Nat} {q : Option String} {x y h : ℚ} {m : Bool}
    {conv : List ChatMessage} {t : Bool} {i2 : Nat} {q2 : Option String} {x2 y2 : ℚ}
    {m2 : Bool} {conv2 : List ChatMessage} {t2 : Bool}
    (ch ch2 : List ChatNode) (hsh : subtreeHeightList ch = subtreeHeightList ch2) :
    getSubtreeHeight (ChatNode.mk i q ch x y h m conv t) =
      getSubtreeHeight (ChatNode.mk i2 q2 ch2 x2 y2 h m2 conv2 t2) := by
  cases ch with
  | nil =>
    cases ch2 with
    | nil => simp [getSubtreeHeight]
    | cons c2 cs2 => exact absurd hsh (by simp [subtreeHeightList])
  | cons c cs =>
    cases ch2 with
    | nil => exact absurd hsh (by simp [subtreeHeightList])
    | cons c2 cs2 => simp [getSubtreeHeight, hsh]

mutual

/-- Horizontal layout does not change any subtree height. -/
theorem getSubtreeHeight_positionChildrenH : ∀ (n : ChatNode) (nx ny : ℚ),
    getSubtreeHeight (positionChildrenH n nx ny).1 = getSubtreeHeight n
  | ChatNode.mk i q [] px py h m conv t, nx, ny => by
    simp [positionChildrenH, getSubtreeHeight]
  | ChatNode.mk i q (c :: cs) px py h m conv t, nx, ny => by
    have hl := subtreeHeightList_placeSiblingsH nx
      (ny + h / 2 - heightsFold (subtreeHeightList (c :: cs)) / 2) (c :: cs)
    simp only [positionChildrenH]
    exact getSubtreeHeight_mk_eq _ _ hl

/-- Horizontal layout does not change the children's subtree height list. -/
theorem subtreeHeightList_placeSiblingsH : ∀ (px yOff : ℚ) (cs : List ChatNode),
    subtreeHeightList (placeSiblingsH px yOff cs).1 = subtreeHeightList cs
  | _, _, [] => by simp [placeSiblingsH, subtreeHeightList]
  | px, yOff, c :: cs => by
    simp only [placeSiblingsH, subtreeHeightList]
    rw [getSubtreeHeight_positionChildrenH c _ _,
      subtreeHeightList_placeSiblingsH px (yOff + getSubtreeHeight c + VERTICAL_SPACING) cs]

end

/-- The laid-out sibling at index `j` is the laid-out original sibling: a
manual child keeps its own position, a non-manual child is assigned the fixed
x-slot right of the parent and the vertically centered slot of the stack. -/
theorem placeSiblingsH_get : ∀ (cs : List ChatNode) (px yOff : ℚ) (j : ℕ) (c : ChatNode),
    cs.get? j = some c →
    ∃ cx cy, (placeSiblingsH px yOff cs).1.get? j = some (positionChildrenH c cx cy).1 ∧
      (c.manualPosition = true → cx = c.x ∧ cy = c.y) ∧
      (c.manualPosition = false →
        cx = px + CARD_WIDTH + HORIZONTAL_SPACING ∧
        cy = yOff + stackOffset VERTICAL_SPACING (subtreeHeightList cs) j +
          getSubtreeHeight c / 2 - c.height / 2)
  | [], _, _, j, c, hg => by simp at hg
  | c0 :: cs, px, yOff, 0, c, hg => by
    have hc : c0 = c := by simpa using hg
    subst hc
    refine ⟨(assignChildPosition c0 (px + CARD_WIDTH + HORIZONTAL_SPACING)
        (yOff + getSubtreeHeight c0 / 2 - c0.height / 2)).1,
      (assignChildPosition c0 (px + CARD_WIDTH + HORIZONTAL_SPACING)
        (yOff + getSubtreeHeight c0 / 2 - c0.height / 2)).2.1, ?_, ?_, ?_⟩
    · simp [placeSiblingsH]
    · intro hm
      rw [assignChildPosition_manual c0 _ _ hm]
      exact ⟨rfl, rfl⟩
    · intro hm
      have ha := assignChildPosition_nonmanual c0
        (px + CARD_WIDTH + HORIZONTAL_SPACING)
        (yOff + getSubtreeHeight c0 / 2 - c0.height / 2) hm
      refine ⟨ha.1, ?_⟩
      rw [ha.2]
      simp [stackOffset]
  | c0 :: cs, px, yOff, j + 1, c, hg => by
    have hg2 : cs.get? j = some c := by simpa using hg
    obtain ⟨cx, cy, h1, h2, h3⟩ := placeSiblingsH_get cs px
      (yOff + getSubtreeHeight c0 + VERTICAL_SPACING) j c hg2
    refine ⟨cx, cy, ?_, h2, ?_⟩
    · simpa [placeSiblingsH] using h1
    · intro hm
      obtain ⟨hx, hy⟩ := h3 hm
      refine ⟨hx, ?_⟩
      rw [hy]
      simp [stackOffset, subtreeHeightList]
      ring

/-- One level of the horizontal invariant: a node laid out by
`positionChildrenH` has all its non-manual children in their computed slots. -/
theorem placedH_positionChildrenH : ∀ (n : ChatNode) (nx ny : ℚ),
    placedH (positionChildrenH n nx ny).1
  | ChatNode.mk i0 q [] px py h m conv t, nx, ny => by
    intro i hi hm
    rw [positionChildrenH_children_nil] at hi
    simp at hi
  | ChatNode.mk i0 q (c :: cs) px py h m conv t, nx, ny => by
    intro i hi hm
    obtain ⟨hox, hoy, hoh, _, _⟩ :=
      positionChildrenH_fields (ChatNode.mk i0 q (c :: cs) px py h m conv t) nx ny
    have hch := positionChildrenH_children_cons i0 q c cs px py h m conv t nx ny
    have hilen : i < (c :: cs).length := by
      have hlen := placeSiblingsH_length nx
        (ny + h / 2 - heightsFold (subtreeHeightList (c :: cs)) / 2) (c :: cs)
      have hi2 := hi
      rw [hch] at hi2
      omega
    have hgin : (c :: cs).get? i = some ((c :: cs).get ⟨i, hilen⟩) :=
      List.get?_eq_get hilen
    obtain ⟨cx, cy, hget, hman, hnon⟩ := placeSiblingsH_get (c :: cs) nx
      (ny + h / 2 - heightsFold (subtreeHeightList (c :: cs)) / 2) i
      ((c :: cs).get ⟨i, hilen⟩) hgin
    have hcg : (positionChildrenH (ChatNode.mk i0 q (c :: cs) px py h m conv t)
        nx ny).1.children.get? i =
        (placeSiblingsH nx
          (ny + h / 2 - heightsFold (subtreeHeightList (c :: cs)) / 2) (c :: cs)).1.get? i := by
      rw [hch]
    have hgeq :
        ((positionChildrenH (ChatNode.mk i0 q (c :: cs) px py h m conv t) nx ny).1.children.get
          ⟨i, hi⟩) = (positionChildrenH ((c :: cs).get ⟨i, hilen⟩) cx cy).1 :=
      Option.some.inj ((List.get?_eq_get hi).symm.trans (hcg.trans hget))
    obtain ⟨hcx, hcy, hcheight, hcman, _⟩ :=
      positionChildrenH_fields ((c :: cs).get ⟨i, hilen⟩) cx cy
    rw [hgeq] at hm ⊢
    rw [hcman] at hm
    obtain ⟨hx2, hy2⟩ := hnon hm
    refine ⟨?_, ?_⟩
    · rw [hcx, hx2, hox]
    · rw [hcy, hoy, hoh, hch, subtreeHeightList_placeSiblingsH,
        getSubtreeHeight_positionChildrenH, hcheight, hy2]
      simp [ChatNode.height]

/-- `getAt` on the empty path. -/
theorem getAt_nil (ns : List ChatNode) : getAt ns [] = none := by
  simp [getAt]

/-- `getAt` on the empty forest. -/
theorem getAt_nil_forest : ∀ (p : List Nat), getAt ([] : List ChatNode) p = none := by
  intro p
  cases p with
  | nil => simp [getAt]
  | cons j p => rw [getAt]; simp

/-- A one-step path is a list lookup. -/
theorem getAt_single (ns : List ChatNode) (j : ℕ) : getAt ns [j] = ns.get? j := by
  rw [getAt]
  cases h : ns.get? j <;> simp

/-- A longer path first looks up the root, then recurses into its children. -/
theorem getAt_cons_some (ns : List ChatNode) (j a : ℕ) (p : List Nat) (c : ChatNode)
    (hj : ns.get? j = some c) :
    getAt ns (j :: a :: p) = getAt c.children (a :: p) := by
  rw [getAt, hj]

/-- A longer path dies when the root lookup fails. -/
theorem getAt_cons_none (ns : List ChatNode) (j a : ℕ) (p : List Nat)
    (hj : ns.get? j = none) :
    getAt ns (j :: a :: p) = none := by
  rw [getAt, hj]

/-- The laid-out forest root by root: each root is laid out from its own
position. -/
theorem layoutHorizontal_get : ∀ (t : List ChatNode) (i : ℕ),
    (layoutHorizontal t).1.get? i =
      (t.get? i).map (fun r => (positionChildrenH r r.x r.y).1)
  | [], i => by simp [layoutHorizontal]
  | r :: rs, 0 => by simp [layoutHorizontal]
  | r :: rs, i + 1 => by
    simp [layoutHorizontal]
    simpa using layoutHorizontal_get rs i

/-- Following any path through laid-out siblings lands on the laid-out
original node; a manual node is laid out from its own position. -/
theorem getAt_placeSiblingsH : ∀ (p : List Nat) (cs : List ChatNode) (px yOff : ℚ)
    (n : ChatNode), getAt cs p = some n →
    ∃ cx cy, getAt (placeSiblingsH px yOff cs).1 p = some (positionChildrenH n cx cy).1 ∧
      (n.manualPosition = true → cx = n.x ∧ cy = n.y)
  | [], _, _, _, _, hg => by rw [getAt_nil] at hg; exact absurd hg (by simp)
  | [j], cs, px, yOff, n, hg => by
    rw [getAt_single] at hg
    obtain ⟨cx, cy, h1, h2, _⟩ := placeSiblingsH_get cs px yOff j n hg
    exact ⟨cx, cy, by rw [getAt_single]; exact h1, h2⟩
  | j :: a :: p, cs, px, yOff, n, hg => by
    cases hj : cs.get? j with
    | none => rw [getAt_cons_none _ _ _ _ hj] at hg; exact absurd hg (by simp)
    | some c =>
      rw [getAt_cons_some _ _ _ _ _ hj] at hg
      obtain ⟨cx0, cy0, hout, _, _⟩ := placeSiblingsH_get cs px yOff j c hj
      cases c with
      | mk ci cq cch ccx ccy cchh ccm ccconv cct =>
        simp only [ChatNode.children] at hg
        cases cch with
        | nil => rw [getAt_nil_forest] at hg; exact absurd hg (by simp)
        | cons c1 cs1 =>
          obtain ⟨cx, cy, hrec, hman⟩ := getAt_placeSiblingsH (a :: p) (c1 :: cs1)
            cx0 (cy0 + cchh / 2 - heightsFold (subtreeHeightList (c1 :: cs1)) / 2) n hg
          refine ⟨cx, cy, ?_, hman⟩
          rw [getAt_cons_some _ _ _ _ _ hout, positionChildrenH_children_cons]
          exact hrec

/-- Following any path through the laid-out forest lands on the laid-out
original node; a manual node is laid out from its own position. -/
theorem getAt_layoutHorizontal : ∀ (p : List Nat) (t : List ChatNode) (n : ChatNode),
    getAt t p = some n →
    ∃ cx cy, getAt (layoutHorizontal t).1 p = some (positionChildrenH n cx cy).1 ∧
      (n.manualPosition = true → cx = n.x ∧ cy = n.y)
  | [], _, _, hg => by rw [getAt_nil] at hg; exact absurd hg (by simp)
  | [j], t, n, hg => by
    rw [getAt_single] at hg
    refine ⟨n.x, n.y, ?_, fun _ => ⟨rfl, rfl⟩⟩
    rw [getAt_single, layoutHorizontal_get, hg]
    rfl
  | j :: a :: p, t, n, hg => by
    cases hj : t.get? j with
    | none => rw [getAt_cons_none _ _ _ _ hj] at hg; exact absurd hg (by simp)
    | some r =>
      rw [getAt_cons_some _ _ _ _ _ hj] at hg
      cases r with
      | mk ri rq rch rx ry rh rm rconv rt =>
        simp only [ChatNode.children] at hg
        cases rch with
        | nil => rw [getAt_nil_forest] at hg; exact absurd hg (by simp)
        | cons c1 cs1 =>
          obtain ⟨cx, cy, hrec, hman⟩ := getAt_placeSiblingsH (a :: p) (c1 :: cs1)
            rx (ry + rh / 2 - heightsFold (subtreeHeightList (c1 :: cs1)) / 2) n hg
          refine ⟨cx, cy, ?_, hman⟩
          have hout : (layoutHorizontal t).1.get? j =
              some (positionChildrenH (ChatNode.mk ri rq (c1 :: cs1) rx ry rh rm rconv rt)
                rx ry).1 := by
            rw [layoutHorizontal_get, hj]
            simp [ChatNode.x, ChatNode.y]
          rw [getAt_cons_some _ _ _ _ _ hout, positionChildrenH_children_cons]
          exact hrec

/-- Every node reachable in laid-out siblings is itself the result of
`positionChildrenH`. -/
theorem getAt_placeSiblingsH_image : ∀ (p : List Nat) (cs : List ChatNode) (px yOff : ℚ)
    (n : ChatNode), getAt (placeSiblingsH px yOff cs).1 p = some n →
    ∃ c cx cy, n = (positionChildrenH c cx cy).1
  | [], _, _, _, _, hg => by rw [getAt_nil] at hg; exact absurd hg (by simp)
  | [j], cs, px, yOff, n, hg => by
    rw [getAt_single] at hg
    obtain ⟨hlt, _⟩ := List.get?_eq_some.mp hg
    rw [placeSiblingsH_length] at hlt
    obtain ⟨cx, cy, hout, _, _⟩ := placeSiblingsH_get cs px yOff j
      (cs.get ⟨j, hlt⟩) (List.get?_eq_get hlt)
    exact ⟨cs.get ⟨j, hlt⟩, cx, cy, Option.some.inj (hg.symm.trans hout)⟩
  | j :: a :: p, cs, px, yOff, n, hg => by
    cases hoj : (placeSiblingsH px yOff cs).1.get? j with
    | none => rw [getAt_cons_none _ _ _ _ hoj] at hg; exact absurd hg (by simp)
    | some cOut =>
      rw [getAt_cons_some _ _ _ _ _ hoj] at hg
      obtain ⟨hlt, _⟩ := List.get?_eq_some.mp hoj
      rw [placeSiblingsH_length] at hlt
      obtain ⟨cx0, cy0, hout, _, _⟩ := placeSiblingsH_get cs px yOff j
        (cs.get ⟨j, hlt⟩) (List.get?_eq_get hlt)
      have hco : cOut = (positionChildrenH (cs.get ⟨j, hlt⟩) cx0 cy0).1 :=
        Option.some.inj (hoj.symm.trans hout)
      rw [hco] at hg
      cases hcs : cs.get ⟨j, hlt⟩ with
      | mk ci cq cch ccx ccy cchh ccm ccconv cct =>
        rw [hcs] at hg
        cases cch with
        | nil =>
          rw [positionChildrenH_children_nil, getAt_nil_forest] at hg
          exact absurd hg (by simp)
        | cons c1 cs1 =>
          rw [positionChildrenH_children_cons] at hg
          exact getAt_placeSiblingsH_image (a :: p) (c1 :: cs1) cx0
            (cy0 + cchh / 2 - heightsFold (subtreeHeightList (c1 :: cs1)) / 2) n hg

/-- C2's invariant: after a horizontal layout run, every node of the result,
at every path, has its non-manual children in their computed slots. -/
theorem layoutHorizontal_placed : ∀ (p : List Nat) (t : List ChatNode) (n : ChatNode),
    getAt (layoutHorizontal t).1 p = some n → placedH n
  | [], _, _, hg => by rw [getAt_nil] at hg; exact absurd hg (by simp)
  | [j], t, n, hg => by
    rw [getAt_single, layoutHorizontal_get] at hg
    cases hj : t.get? j with
    | none => rw [hj] at hg; exact absurd hg (by simp)
    | some r =>
      rw [hj] at hg
      have : (positionChildrenH r r.x r.y).1 = n := Option.some.inj (by simpa using hg)
      rw [← this]
      exact placedH_positionChildrenH r r.x r.y
  | j :: a :: p, t, n, hg => by
    cases hoj : (layoutHorizontal t).1.get? j with
    | none => rw [getAt_cons_none _ _ _ _ hoj] at hg; exact absurd hg (by simp)
    | some rOut =>
      rw [getAt_cons_some _ _ _ _ _ hoj] at hg
      rw [layoutHorizontal_get] at hoj
      cases hj : t.get? j with
      | none => rw [hj] at hoj; exact absurd hoj (by simp)
      | some r =>
        rw [hj] at hoj
        have hro : rOut = (positionChildrenH r r.x r.y).1 :=
          (Option.some.inj (by simpa using hoj)).symm
        rw [hro] at hg
        cases hr : r with
        | mk ri rq rch rx ry rh rm rconv rt =>
          rw [hr] at hg
          cases rch with
          | nil =>
            rw [positionChildrenH_children_nil, getAt_nil_forest] at hg
            exact absurd hg (by simp)
          | cons c1 cs1 =>
            rw [positionChildrenH_children_cons] at hg
            obtain ⟨c, cx, cy, hi⟩ := getAt_placeSiblingsH_image (a :: p) (c1 :: cs1)
              (ChatNode.mk ri rq (c1 :: cs1) rx ry rh rm rconv rt).x
              ((ChatNode.mk ri rq (c1 :: cs1) rx ry rh rm rconv rt).y +
                rh / 2 - heightsFold (subtreeHeightList (c1 :: cs1)) / 2) n (by
                  simpa [ChatNode.x, ChatNode.y] using hg)
            rw [hi]
            exact placedH_positionChildrenH c cx cy

mutual

/-- Laying out an already laid-out node again moves nothing. -/
theorem positionChildrenH_idem : ∀ (n : ChatNode) (nx ny : ℚ),
    positionChildrenH (positionChildrenH n nx ny).1 nx ny = ((positionChildrenH n nx ny).1, false)
  | ChatNode.mk i q [] px py h m conv t, nx, ny => by
    simp [positionChildrenH]
  | ChatNode.mk i q (c :: cs) px py h m conv t, nx, ny => by
    have hlen := placeSiblingsH_length nx
      (ny + h / 2 - heightsFold (subtreeHeightList (c :: cs)) / 2) (c :: cs)
    cases hout : (placeSiblingsH nx
        (ny + h / 2 - heightsFold (subtreeHeightList (c :: cs)) / 2) (c :: cs)).1 with
    | nil => rw [hout] at hlen; simp at hlen
    | cons a l =>
      have hsh : subtreeHeightList (a :: l) = subtreeHeightList (c :: cs) := by
        rw [← hout, subtreeHeightList_placeSiblingsH]
      have hidem := placeSiblingsH_idem nx
        (ny + h / 2 - heightsFold (subtreeHeightList (c :: cs)) / 2) (c :: cs)
      simp only [positionChildrenH]
      rw [hout]
      simp only [positionChildrenH]
      rw [hsh, ← hout, hidem, hout]

/-- Laying out already laid-out siblings again moves nothing. -/
theorem placeSiblingsH_idem : ∀ (px yOff : ℚ) (cs : List ChatNode),
    placeSiblingsH px yOff (placeSiblingsH px yOff cs).1 = ((placeSiblingsH px yOff cs).1, false)
  | px, yOff, [] => by simp [placeSiblingsH]
  | px, yOff, c :: cs => by
    simp only [placeSiblingsH]
    generalize hA : assignChildPosition c (px + CARD_WIDTH + HORIZONTAL_SPACING)
      (yOff + getSubtreeHeight c / 2 - c.height / 2) = A
    generalize hR1 : positionChildrenH c A.1 A.2.1 = R1
    generalize hR2 : placeSiblingsH px (yOff + getSubtreeHeight c + VERTICAL_SPACING) cs = R2
    have hfields := positionChildrenH_fields c A.1 A.2.1
    rw [hR1] at hfields
    obtain ⟨hfx, hfy, hfh, hfm, _⟩ := hfields
    have hH2 : getSubtreeHeight R1.1 = getSubtreeHeight c := by
      rw [← hR1]; exact getSubtreeHeight_positionChildrenH c A.1 A.2.1
    rw [hH2, hfh]
    have hassign : assignChildPosition R1.1 (px + CARD_WIDTH + HORIZONTAL_SPACING)
        (yOff + getSubtreeHeight c / 2 - c.height / 2) = (A.1, A.2.1, false) := by
      by_cases hm : c.manualPosition = true
      · have hAval : A = (c.x, c.y, false) := by
          rw [← hA]; exact assignChildPosition_manual c _ _ hm
        have hm2 : R1.1.manualPosition = true := by rw [hfm, hm]
        rw [assignChildPosition_manual R1.1 _ _ hm2, hfx, hfy]
      · have hm' : c.manualPosition = false := by
          revert hm; cases c.manualPosition <;> simp
        obtain ⟨hA1, hA21⟩ := assignChildPosition_nonmanual c
          (px + CARD_WIDTH + HORIZONTAL_SPACING)
          (yOff + getSubtreeHeight c / 2 - c.height / 2) hm'
        rw [hA] at hA1 hA21
        rw [assignChildPosition_already R1.1 _ _ (by rw [hfx, hA1]) (by rw [hfy, hA21])]
        rw [hA1, hA21]
    rw [hassign]
    have hidem1 : positionChildrenH R1.1 A.1 A.2.1 = (R1.1, false) := by
      have := positionChildrenH_idem c A.1 A.2.1
      rw [hR1] at this
      exact this
    have hidem2 : placeSiblingsH px (yOff + getSubtreeHeight c + VERTICAL_SPACING) R2.1 =
        (R2.1, false) := by
      have := placeSiblingsH_idem px (yOff + getSubtreeHeight c + VERTICAL_SPACING) cs
      rw [hR2] at this
      exact this
    simp only [hidem1, hidem2]
    simp

end

/-- Running the horizontal layout twice returns the once-laid-out forest with
the change flag down. -/
theorem layoutHorizontal_idem : ∀ (t : List ChatNode),
    layoutHorizontal (layoutHorizontal t).1 = ((layoutHorizontal t).1, false)
  | [] => by simp [layoutHorizontal]
  | r :: rs => by
    simp only [layoutHorizontal]
    obtain ⟨hfx, hfy, _, _, _⟩ := positionChildrenH_fields r r.x r.y
    rw [hfx, hfy, positionChildrenH_idem r r.x r.y, layoutHorizontal_idem rs]
    simp

/-! ## Layout lemmas: vertical mode -/

/-- `positionChildrenV` writes the assigned position into the node and keeps
its id, height and manual flag. -/
theorem positionChildrenV_fields (n : ChatNode) (nx ny : ℚ) :
    (positionChildrenV n nx ny).1.x = nx ∧ (positionChildrenV n nx ny).1.y = ny ∧
    (positionChildrenV n nx ny).1.height = n.height ∧
    (positionChildrenV n nx ny).1.manualPosition = n.manualPosition ∧
    (positionChildrenV n nx ny).1.id = n.id := by
  cases n with
  | mk i q ch px py h m conv t =>
    cases ch with
    | nil =>
      simp [positionChildrenV, ChatNode.x, ChatNode.y, ChatNode.height,
        ChatNode.manualPosition, ChatNode.id]
    | cons c cs =>
      simp [positionChildrenV, ChatNode.x, ChatNode.y, ChatNode.height,
        ChatNode.manualPosition, ChatNode.id]

/-- The children of a vertically laid-out leaf. -/
theorem positionChildrenV_children_nil (i : Nat) (q : Option String) (px py h : ℚ)
    (m : Bool) (conv : List ChatMessage) (t : Bool) (nx ny : ℚ) :
    (positionChildrenV (ChatNode.mk i q [] px py h m conv t) nx ny).1.children = [] := by
  simp [positionChildrenV, ChatNode.children]

/-- The children of a vertically laid-out inner node. -/
theorem positionChildrenV_children_cons (i : Nat) (q : Option String)
    (c : ChatNode) (cs : List ChatNode) (px py h : ℚ) (m : Bool)
    (conv : List ChatMessage) (t : Bool) (nx ny : ℚ) :
    (positionChildrenV (ChatNode.mk i q (c :: cs) px py h m conv t) nx ny).1.children =
      (placeSiblingsV (ny + h + VERTICAL_SPACING)
        (nx + CARD_WIDTH / 2 - widthsFold (subtreeWidthList (c :: cs)) / 2) (c :: cs)).1 := by
  simp [positionChildrenV, ChatNode.children]

/-- Laying out siblings vertically keeps their number. -/
theorem placeSiblingsV_length : ∀ (cy0 xOff : ℚ) (cs : List ChatNode),
    ((placeSiblingsV cy0 xOff cs).1).length = cs.length
  | _, _, [] => by simp [placeSiblingsV]
  | cy0, xOff, c :: cs => by
    simp [placeSiblingsV,
      placeSiblingsV_length cy0 (xOff + getSubtreeWidth c + HORIZONTAL_SPACING) cs]

/-- `getSubtreeWidth` only looks at the subtree widths of the children. -/
theorem getSubtreeWidth_mk_eq {i : Nat} {q : Option String} {x y h : ℚ} {m : Bool}
    {conv : List ChatMessage} {t : Bool} {i2 : Nat} {q2 : Option String} {x2 y2 h2 : ℚ}
    {m2 : Bool} {conv2 : List ChatMessage} {t2 : Bool}
    (ch ch2 : List ChatNode) (hsw : subtreeWidthList ch = subtreeWidthList ch2) :
    getSubtreeWidth (ChatNode.mk i q ch x y h m conv t) =
      getSubtreeWidth (ChatNode.mk i2 q2 ch2 x2 y2 h2 m2 conv2 t2) := by
  cases ch with
  | nil =>
    cases ch2 with
    | nil => simp [getSubtreeWidth]
    | cons c2 cs2 => exact absurd hsw (by simp [subtreeWidthList])
  | cons c cs =>
    cases ch2 with
    | nil => exact absurd hsw (by simp [subtreeWidthList])
    | cons c2 cs2 => simp [getSubtreeWidth, hsw]

mutual

/-- Vertical layout does not change any subtree width. -/
theorem getSubtreeWidth_positionChildrenV : ∀ (n : ChatNode) (nx ny : ℚ),
    getSubtreeWidth (positionChildrenV n nx ny).1 = getSubtreeWidth n
  | ChatNode.mk i q [] px py h m conv t, nx, ny => by
    simp [positionChildrenV, getSubtreeWidth]
  | ChatNode.mk i q (c :: cs) px py h m conv t, nx, ny => by
    have hl := subtreeWidthList_placeSiblingsV (ny + h + VERTICAL_SPACING)
      (nx + CARD_WIDTH / 2 - widthsFold (subtreeWidthList (c :: cs)) / 2) (c :: cs)
    simp only [positionChildrenV]
    exact getSubtreeWidth_mk_eq _ _ hl

/-- Vertical layout does not change the children's subtree width list. -/
theorem subtreeWidthList_placeSiblingsV : ∀ (cy0 xOff : ℚ) (cs : List ChatNode),
    subtreeWidthList (placeSiblingsV cy0 xOff cs).1 = subtreeWidthList cs
  | _, _, [] => by simp [placeSiblingsV, subtreeWidthList]
  | cy0, xOff, c :: cs => by
    simp only [placeSiblingsV, subtreeWidthList]
    rw [getSubtreeWidth_positionChildrenV c _ _,
      subtreeWidthList_placeSiblingsV cy0 (xOff + getSubtreeWidth c + HORIZONTAL_SPACING) cs]

end

/-- The vertically laid-out sibling at index `j`: a manual child keeps its own
position, a non-manual child drops to the common row below the parent and is
horizontally centered in its slot of the row of child subtrees. -/
theorem placeSiblingsV_get : ∀ (cs : List ChatNode) (cy0 xOff : ℚ) (j : ℕ) (c : ChatNode),
    cs.get? j = some c →
    ∃ cx cy, (placeSiblingsV cy0 xOff cs).1.get? j = some (positionChildrenV c cx cy).1 ∧
      (c.manualPosition = true → cx = c.x ∧ cy = c.y) ∧
      (c.manualPosition = false →
        cy = cy0 ∧
        cx = xOff + stackOffset HORIZONTAL_SPACING (subtreeWidthList cs) j +
          getSubtreeWidth c / 2 - CARD_WIDTH / 2)
  | [], _, _, j, c, hg => by simp at hg
  | c0 :: cs, cy0, xOff, 0, c, hg => by
    have hc : c0 = c := by simpa using hg
    subst hc
    refine ⟨(assignChildPosition c0 (xOff + getSubtreeWidth c0 / 2 - CARD_WIDTH / 2) cy0).1,
      (assignChildPosition c0 (xOff + getSubtreeWidth c0 / 2 - CARD_WIDTH / 2) cy0).2.1,
      ?_, ?_, ?_⟩
    · simp [placeSiblingsV]
    · intro hm
      rw [assignChildPosition_manual c0 _ _ hm]
      exact ⟨rfl, rfl⟩
    · intro hm
      have ha := assignChildPosition_nonmanual c0
        (xOff + getSubtreeWidth c0 / 2 - CARD_WIDTH / 2) cy0 hm
      refine ⟨ha.2, ?_⟩
      rw [ha.1]
      simp [stackOffset]
  | c0 :: cs, cy0, xOff, j + 1, c, hg => by
    have hg2 : cs.get? j = some c := by simpa using hg
    obtain ⟨cx, cy, h1, h2, h3⟩ := placeSiblingsV_get cs cy0
      (xOff + getSubtreeWidth c0 + HORIZONTAL_SPACING) j c hg2
    refine ⟨cx, cy, ?_, h2, ?_⟩
    · simpa [placeSiblingsV] using h1
    · intro hm
      obtain ⟨hy, hx⟩ := h3 hm
      refine ⟨hy, ?_⟩
      rw [hx]
      simp [stackOffset, subtreeWidthList]
      ring

/-- One level of the vertical invariant: a node laid out by
`positionChildrenV` has all its non-manual children in their computed slots. -/
theorem placedV_positionChildrenV : ∀ (n : ChatNode) (nx ny : ℚ),
    placedV (positionChildrenV n nx ny).1
  | ChatNode.mk i0 q [] px py h m conv t, nx, ny => by
    intro i hi hm
    rw [positionChildrenV_children_nil] at hi
    simp at hi
  | ChatNode.mk i0 q (c :: cs) px py h m conv t, nx, ny => by
    intro i hi hm
    obtain ⟨hox, hoy, hoh, _, _⟩ :=
      positionChildrenV_fields (ChatNode.mk i0 q (c :: cs) px py h m conv t) nx ny
    have hch := positionChildrenV_children_cons i0 q c cs px py h m conv t nx ny
    have hilen : i < (c :: cs).length := by
      have hlen := placeSiblingsV_length (ny + h + VERTICAL_SPACING)
        (nx + CARD_WIDTH / 2 - widthsFold (subtreeWidthList (c :: cs)) / 2) (c :: cs)
      have hi2 := hi
      rw [hch] at hi2
      omega
    have hgin : (c :: cs).get? i = some ((c :: cs).get ⟨i, hilen⟩) :=
      List.get?_eq_get hilen
    obtain ⟨cx, cy, hget, hman, hnon⟩ := placeSiblingsV_get (c :: cs)
      (ny + h + VERTICAL_SPACING)
      (nx + CARD_WIDTH / 2 - widthsFold (subtreeWidthList (c :: cs)) / 2) i
      ((c :: cs).get ⟨i, hilen⟩) hgin
    have hcg : (positionChildrenV (ChatNode.mk i0 q (c :: cs) px py h m conv t)
        nx ny).1.children.get? i =
        (placeSiblingsV (ny + h + VERTICAL_SPACING)
          (nx + CARD_WIDTH / 2 - widthsFold (subtreeWidthList (c :: cs)) / 2)
          (c :: cs)).1.get? i := by
      rw [hch]
    have hgeq :
        ((positionChildrenV (ChatNode.mk i0 q (c :: cs) px py h m conv t) nx ny).1.children.get
          ⟨i, hi⟩) = (positionChildrenV ((c :: cs).get ⟨i, hilen⟩) cx cy).1 :=
      Option.some.inj ((List.get?_eq_get hi).symm.trans (hcg.trans hget))
    obtain ⟨hcx, hcy, hcheight, hcman, _⟩ :=
      positionChildrenV_fields ((c :: cs).get ⟨i, hilen⟩) cx cy
    rw [hgeq] at hm ⊢
    rw [hcman] at hm
    obtain ⟨hy2, hx2⟩ := hnon hm
    refine ⟨?_, ?_⟩
    · rw [hcy, hy2, hoy, hoh]
      simp [ChatNode.height]
    · rw [hcx, hox, hch, subtreeWidthList_placeSiblingsV,
        getSubtreeWidth_positionChildrenV, hx2]

/-- The vertically laid-out forest root by root. -/
theorem layoutVertical_get : ∀ (t : List ChatNode) (i : ℕ),
    (layoutVertical t).1.get? i =
      (t.get? i).map (fun r => (positionChildrenV r r.x r.y).1)
  | [], i => by simp [layoutVertical]
  | r :: rs, 0 => by simp [layoutVertical]
  | r :: rs, i + 1 => by
    simp [layoutVertical]
    simpa using layoutVertical_get rs i

/-- Following any path through vertically laid-out siblings lands on the
laid-out original node; a manual node is laid out from its own position. -/
theorem getAt_placeSiblingsV : ∀ (p : List Nat) (cs : List ChatNode) (cy0 xOff : ℚ)
    (n : ChatNode), getAt cs p = some n →
    ∃ cx cy, getAt (placeSiblingsV cy0 xOff cs).1 p = some (positionChildrenV n cx cy).1 ∧
      (n.manualPosition = true → cx = n.x ∧ cy = n.y)
  | [], _, _, _, _, hg => by rw [getAt_nil] at hg; exact absurd hg (by simp)
  | [j], cs, cy0, xOff, n, hg => by
    rw [getAt_single] at hg
    obtain ⟨cx, cy, h1, h2, _⟩ := placeSiblingsV_get cs cy0 xOff j n hg
    exact ⟨cx, cy, by rw [getAt_single]; exact h1, h2⟩
  | j :: a :: p, cs, cy0, xOff, n, hg => by
    cases hj : cs.get? j with
    | none => rw [getAt_cons_none _ _ _ _ hj] at hg; exact absurd hg (by simp)
    | some c =>
      rw [getAt_cons_some _ _ _ _ _ hj] at hg
      obtain ⟨cx0, cy0b, hout, _, _⟩ := placeSiblingsV_get cs cy0 xOff j c hj
      cases c with
      | mk ci cq cch ccx ccy cchh ccm ccconv cct =>
        simp only [ChatNode.children] at hg
        cases cch with
        | nil => rw [getAt_nil_forest] at hg; exact absurd hg (by simp)
        | cons c1 cs1 =>
          obtain ⟨cx, cy, hrec, hman⟩ := getAt_placeSiblingsV (a :: p) (c1 :: cs1)
            (cy0b + cchh + VERTICAL_SPACING)
            (cx0 + CARD_WIDTH / 2 - widthsFold (subtreeWidthList (c1 :: cs1)) / 2) n hg
          refine ⟨cx, cy, ?_, hman⟩
          rw [getAt_cons_some _ _ _ _ _ hout, positionChildrenV_children_cons]
          exact hrec

/-- Following any path through the vertically laid-out forest lands on the
laid-out original node; a manual node is laid out from its own position. -/
theorem getAt_layoutVertical : ∀ (p : List Nat) (t : List ChatNode) (n : ChatNode),
    getAt t p = some n →
    ∃ cx cy, getAt (layoutVertical t).1 p = some (positionChildrenV n cx cy).1 ∧
      (n.manualPosition = true → cx = n.x ∧ cy = n.y)
  | [], _, _, hg => by rw [getAt_nil] at hg; exact absurd hg (by simp)
  | [j], t, n, hg => by
    rw [getAt_single] at hg
    refine ⟨n.x, n.y, ?_, fun _ => ⟨rfl, rfl⟩⟩
    rw [getAt_single, layoutVertical_get, hg]
    rfl
  | j :: a :: p, t, n, hg => by
    cases hj : t.get? j with
    | none => rw [getAt_cons_none _ _ _ _ hj] at hg; exact absurd hg (by simp)
    | some r =>
      rw [getAt_cons_some _ _ _ _ _ hj] at hg
      cases r with
      | mk ri rq rch rx ry rh rm rconv rt =>
        simp only [ChatNode.children] at hg
        cases rch with
        | nil => rw [getAt_nil_forest] at hg; exact absurd hg (by simp)
        | cons c1 cs1 =>
          obtain ⟨cx, cy, hrec, hman⟩ := getAt_placeSiblingsV (a :: p) (c1 :: cs1)
            (ry + rh + VERTICAL_SPACING)
            (rx + CARD_WIDTH / 2 - widthsFold (subtreeWidthList (c1 :: cs1)) / 2) n hg
          refine ⟨cx, cy, ?_, hman⟩
          have hout : (layoutVertical t).1.get? j =
              some (positionChildrenV (ChatNode.mk ri rq (c1 :: cs1) rx ry rh rm rconv rt)
                rx ry).1 := by
            rw [layoutVertical_get, hj]
            simp [ChatNode.x, ChatNode.y]
          rw [getAt_cons_some _ _ _ _ _ hout, positionChildrenV_children_cons]
          exact hrec

/-- Every node reachable in vertically laid-out siblings is itself the result
of `positionChildrenV`. -/
theorem getAt_placeSiblingsV_image : ∀ (p : List Nat) (cs : List ChatNode) (cy0 xOff : ℚ)
    (n : ChatNode), getAt (placeSiblingsV cy0 xOff cs).1 p = some n →
    ∃ c cx cy, n = (positionChildrenV c cx cy).1
  | [], _, _, _, _, hg => by rw [getAt_nil] at hg; exact absurd hg (by simp)
  | [j], cs, cy0, xOff, n, hg => by
    rw [getAt_single] at hg
    obtain ⟨hlt, _⟩ := List.get?_eq_some.mp hg
    rw [placeSiblingsV_length] at hlt
    obtain ⟨cx, cy, hout, _, _⟩ := placeSiblingsV_get cs cy0 xOff j
      (cs.get ⟨j, hlt⟩) (List.get?_eq_get hlt)
    exact ⟨cs.get ⟨j, hlt⟩, cx, cy, Option.some.inj (hg.symm.trans hout)⟩
  | j :: a :: p, cs, cy0, xOff, n, hg => by
    cases hoj : (placeSiblingsV cy0 xOff cs).1.get? j with
    | none => rw [getAt_cons_none _ _ _ _ hoj] at hg; exact absurd hg (by simp)
    | some cOut =>
      rw [getAt_cons_some _ _ _ _ _ hoj] at hg
      obtain ⟨hlt, _⟩ := List.get?_eq_some.mp hoj
      rw [placeSiblingsV_length] at hlt
      obtain ⟨cx0, cy0b, hout, _, _⟩ := placeSiblingsV_get cs cy0 xOff j
        (cs.get ⟨j, hlt⟩) (List.get?_eq_get hlt)
      have hco : cOut = (positionChildrenV (cs.get ⟨j, hlt⟩) cx0 cy0b).1 :=
        Option.some.inj (hoj.symm.trans hout)
      rw [hco] at hg
      cases hcs : cs.get ⟨j, hlt⟩ with
      | mk ci cq cch ccx ccy cchh ccm ccconv cct =>
        rw [hcs] at hg
        cases cch with
        | nil =>
          rw [positionChildrenV_children_nil, getAt_nil_forest] at hg
          exact absurd hg (by simp)
        | cons c1 cs1 =>
          rw [positionChildrenV_children_cons] at hg
          exact getAt_placeSiblingsV_image (a :: p) (c1 :: cs1)
            (cy0b + cchh + VERTICAL_SPACING)
            (cx0 + CARD_WIDTH / 2 - widthsFold (subtreeWidthList (c1 :: cs1)) / 2) n hg

/-- After a vertical layout run, every node of the result, at every path, has
its non-manual children in their computed slots. -/
theorem layoutVertical_placed : ∀ (p : List Nat) (t : List ChatNode) (n : ChatNode),
    getAt (layoutVertical t).1 p = some n → placedV n
  | [], _, _, hg => by rw [getAt_nil] at hg; exact absurd hg (by simp)
  | [j], t, n, hg => by
    rw [getAt_single, layoutVertical_get] at hg
    cases hj : t.get? j with
    | none => rw [hj] at hg; exact absurd hg (by simp)
    | some r =>
      rw [hj] at hg
      have : (positionChildrenV r r.x r.y).1 = n := Option.some.inj (by simpa using hg)
      rw [← this]
      exact placedV_positionChildrenV r r.x r.y
  | j :: a :: p, t, n, hg => by
    cases hoj : (layoutVertical t).1.get? j with
    | none => rw [getAt_cons_none _ _ _ _ hoj] at hg; exact absurd hg (by simp)
    | some rOut =>
      rw [getAt_cons_some _ _ _ _ _ hoj] at hg
      rw [layoutVertical_get] at hoj
      cases hj : t.get? j with
      | none => rw [hj] at hoj; exact absurd hoj (by simp)
      | some r =>
        rw [hj] at hoj
        have hro : rOut = (positionChildrenV r r.x r.y).1 :=
          (Option.some.inj (by simpa using hoj)).symm
        rw [hro] at hg
        cases hr : r with
        | mk ri rq rch rx ry rh rm rconv rt =>
          rw [hr] at hg
          cases rch with
          | nil =>
            rw [positionChildrenV_children_nil, getAt_nil_forest] at hg
            exact absurd hg (by simp)
          | cons c1 cs1 =>
            rw [positionChildrenV_children_cons] at hg
            obtain ⟨c, cx, cy, hi⟩ := getAt_placeSiblingsV_image (a :: p) (c1 :: cs1)
              ((ChatNode.mk ri rq (c1 :: cs1) rx ry rh rm rconv rt).y + rh + VERTICAL_SPACING)
              ((ChatNode.mk ri rq (c1 :: cs1) rx ry rh rm rconv rt).x +
                CARD_WIDTH / 2 - widthsFold (subtreeWidthList (c1 :: cs1)) / 2) n (by
                  simpa [ChatNode.x, ChatNode.y] using hg)
            rw [hi]
            exact placedV_positionChildrenV c cx cy

mutual

/-- Vertically laying out an already laid-out node again moves nothing. -/
theorem positionChildrenV_idem : ∀ (n : ChatNode) (nx ny : ℚ),
    positionChildrenV (positionChildrenV n nx ny).1 nx ny = ((positionChildrenV n nx ny).1, false)
  | ChatNode.mk i q [] px py h m conv t, nx, ny => by
    simp [positionChildrenV]
  | ChatNode.mk i q (c :: cs) px py h m conv t, nx, ny => by
    have hlen := placeSiblingsV_length (ny + h + VERTICAL_SPACING)
      (nx + CARD_WIDTH / 2 - widthsFold (subtreeWidthList (c :: cs)) / 2) (c :: cs)
    cases hout : (placeSiblingsV (ny + h + VERTICAL_SPACING)
        (nx + CARD_WIDTH / 2 - widthsFold (subtreeWidthList (c :: cs)) / 2) (c :: cs)).1 with
    | nil => rw [hout] at hlen; simp at hlen
    | cons a l =>
      have hsw : subtreeWidthList (a :: l) = subtreeWidthList (c :: cs) := by
        rw [← hout, subtreeWidthList_placeSiblingsV]
      have hidem := placeSiblingsV_idem (ny + h + VERTICAL_SPACING)
        (nx + CARD_WIDTH / 2 - widthsFold (subtreeWidthList (c :: cs)) / 2) (c :: cs)
      simp only [positionChildrenV]
      rw [hout]
      simp only [positionChildrenV]
      rw [hsw, ← hout, hidem, hout]

/-- Vertically laying out already laid-out siblings again moves nothing. -/
theorem placeSiblingsV_idem : ∀ (cy0 xOff : ℚ) (cs : List ChatNode),
    placeSiblingsV cy0 xOff (placeSiblingsV cy0 xOff cs).1 = ((placeSiblingsV cy0 xOff cs).1, false)
  | cy0, xOff, [] => by simp [placeSiblingsV]
  | cy0, xOff, c :: cs => by
    simp only [placeSiblingsV]
    generalize hA : assignChildPosition c (xOff + getSubtreeWidth c / 2 - CARD_WIDTH / 2)
      cy0 = A
    generalize hR1 : positionChildrenV c A.1 A.2.1 = R1
    generalize hR2 : placeSiblingsV cy0 (xOff + getSubtreeWidth c + HORIZONTAL_SPACING) cs = R2
    have hfields := positionChildrenV_fields c A.1 A.2.1
    rw [hR1] at hfields
    obtain ⟨hfx, hfy, hfh, hfm, _⟩ := hfields
    have hW2 : getSubtreeWidth R1.1 = getSubtreeWidth c := by
      rw [← hR1]; exact getSubtreeWidth_positionChildrenV c A.1 A.2.1
    rw [hW2]
    have hassign : assignChildPosition R1.1 (xOff + getSubtreeWidth c / 2 - CARD_WIDTH / 2)
        cy0 = (A.1, A.2.1, false) := by
      by_cases hm : c.manualPosition = true
      · have hm2 : R1.1.manualPosition = true := by rw [hfm, hm]
        rw [assignChildPosition_manual R1.1 _ _ hm2, hfx, hfy]
      · have hm' : c.manualPosition = false := by
          revert hm; cases c.manualPosition <;> simp
        obtain ⟨hA1, hA21⟩ := assignChildPosition_nonmanual c
          (xOff + getSubtreeWidth c / 2 - CARD_WIDTH / 2) cy0 hm'
        rw [hA] at hA1 hA21
        rw [assignChildPosition_already R1.1 _ _ (by rw [hfx, hA1]) (by rw [hfy, hA21])]
        rw [hA1, hA21]
    rw [hassign]
    have hidem1 : positionChildrenV R1.1 A.1 A.2.1 = (R1.1, false) := by
      have := positionChildrenV_idem c A.1 A.2.1
      rw [hR1] at this
      exact this
    have hidem2 : placeSiblingsV cy0 (xOff + getSubtreeWidth c + HORIZONTAL_SPACING) R2.1 =
        (R2.1, false) := by
      have := placeSiblingsV_idem cy0 (xOff + getSubtreeWidth c + HORIZONTAL_SPACING) cs
      rw [hR2] at this
      exact this
    simp only [hidem1, hidem2]
    simp

end

/-- Running the vertical layout twice returns the once-laid-out forest with
the change flag down. -/
theorem layoutVertical_idem : ∀ (t : List ChatNode),
    layoutVertical (layoutVertical t).1 = ((layoutVertical t).1, false)
  | [] => by simp [layoutVertical]
  | r :: rs => by
    simp only [layoutVertical]
    obtain ⟨hfx, hfy, _, _, _⟩ := positionChildrenV_fields r r.x r.y
    rw [hfx, hfy, positionChildrenV_idem r r.x r.y, layoutVertical_idem rs]
    simp

/-! ## Layout claims (C3, C2, C4) -/

/-- C3: the layout pass is idempotent — for every tree and either mode (node
heights held fixed), running it a second time on the first run's output moves
no node and leaves the has-changes flag down. -/
theorem layout_idempotent :
    ∀ (mode : LayoutMode) (t : List ChatNode),
      runLayout mode (runLayout mode t).1 = ((runLayout mode t).1, false) := by
  intro mode t
  cases mode with
  | horizontal => exact layoutHorizontal_idem t
  | vertical => exact layoutVertical_idem t

/-- The concrete tree of C2's example: a parent at `y = 500` of height `200`
with two children of height `100`. -/
def c2SampleTree : List ChatNode :=
  [ChatNode.mk 1 none
    [ChatNode.mk 2 none [] 0 0 100 false [] false,
      ChatNode.mk 3 none [] 0 0 100 false [] false]
    725 500 200 false [] false]

/-- C2: after a horizontal layout run every node has each non-manual child at
`x = parent.x + CARD_WIDTH + HORIZONTAL_SPACING`, vertically centered in its
slot of the child-subtree stack, which is itself centered on the parent
(`placedH`); subtree height is the max of the node's own height and the summed
child subtree heights plus gaps; and the concrete example parent yields child
y-positions `460` and `640`. -/
theorem layoutHorizontal_child_positions :
    (∀ (t : List ChatNode) (p : List Nat) (n : ChatNode),
      getAt (layoutHorizontal t).1 p = some n → placedH n) ∧
    (∀ n : ChatNode, n.children ≠ [] →
      getSubtreeHeight n = max n.height (heightsFold (subtreeHeightList n.children))) ∧
    layoutHorizontal c2SampleTree =
      ([ChatNode.mk 1 none
        [ChatNode.mk 2 none [] 1525 460 100 false [] false,
          ChatNode.mk 3 none [] 1525 640 100 false [] false]
        725 500 200 false [] false], true) := by
  refine ⟨fun t p n hg => layoutHorizontal_placed p t n hg, ?_, ?_⟩
  · intro n hne
    cases n with
    | mk i q ch px py h m conv t =>
      cases ch with
      | nil => exact absurd (by simp [ChatNode.children]) hne
      | cons c cs =>
        simp [getSubtreeHeight, ChatNode.height, ChatNode.children]
  · simp [c2SampleTree, layoutHorizontal, positionChildrenH, placeSiblingsH,
      assignChildPosition, getSubtreeHeight, subtreeHeightList, heightsFold,
      ChatNode.x, ChatNode.y, ChatNode.height, ChatNode.manualPosition,
      CARD_WIDTH, HORIZONTAL_SPACING, VERTICAL_SPACING]
    norm_num

/-- Witness for C2: the laid-out example parent satisfies `placedH`. -/
theorem layoutHorizontal_child_positions_witness :
    placedH (ChatNode.mk 1 none
      [ChatNode.mk 2 none [] 1525 460 100 false [] false,
        ChatNode.mk 3 none [] 1525 640 100 false [] false]
      725 500 200 false [] false) := by
  apply layoutHorizontal_child_positions.1 c2SampleTree [0]
  rw [getAt_single, layoutHorizontal_child_positions.2.2]
  rfl

/-- C4: in either mode, a node whose manual flag is set keeps its x and y
through a layout run, while its children are still laid out relative to it
(the laid-out node satisfies the mode's placement invariant around its own,
unmoved, position). -/
theorem manual_node_keeps_position :
    ∀ (mode : LayoutMode) (t : List ChatNode) (p : List Nat) (n : ChatNode),
      getAt t p = some n → n.manualPosition = true →
      ∃ n2, getAt (runLayout mode t).1 p = some n2 ∧ n2.x = n.x ∧ n2.y = n.y ∧
        (mode = LayoutMode.horizontal → placedH n2) ∧
        (mode = LayoutMode.vertical → placedV n2) := by
  intro mode t p n hg hm
  cases mode with
  | horizontal =>
    obtain ⟨cx, cy, hout, hmanual⟩ := getAt_layoutHorizontal p t n hg
    obtain ⟨hx, hy⟩ := hmanual hm
    obtain ⟨hfx, hfy, _, _, _⟩ := positionChildrenH_fields n cx cy
    exact ⟨(positionChildrenH n cx cy).1, hout, by rw [hfx, hx], by rw [hfy, hy],
      fun _ => placedH_positionChildrenH n cx cy,
      fun hc => absurd hc (by decide)⟩
  | vertical =>
    obtain ⟨cx, cy, hout, hmanual⟩ := getAt_layoutVertical p t n hg
    obtain ⟨hx, hy⟩ := hmanual hm
    obtain ⟨hfx, hfy, _, _, _⟩ := positionChildrenV_fields n cx cy
    exact ⟨(positionChildrenV n cx cy).1, hout, by rw [hfx, hx], by rw [hfy, hy],
      fun hc => absurd hc (by decide),
      fun _ => placedV_positionChildrenV n cx cy⟩

/-- Witness tree for C4: the root's only child (id 2) was dragged to
`(50, 60)` and carries the manual flag. -/
def c4SampleTree : List ChatNode :=
  [ChatNode.mk 1 none [ChatNode.mk 2 none [] 50 60 100 true [] false]
    725 500 200 false [] false]

/-- Witness for C4: after a horizontal run the manual child still sits at
`(50, 60)`. -/
theorem manual_node_keeps_position_witness :
    (getAt (runLayout LayoutMode.horizontal c4SampleTree).1 [0, 0]).map ChatNode.x =
      some 50 ∧
    (getAt (runLayout LayoutMode.horizontal c4SampleTree).1 [0, 0]).map ChatNode.y =
      some 60 := by
  obtain ⟨n2, hout, hx, hy, _, _⟩ := manual_node_keeps_position
    LayoutMode.horizontal c4SampleTree [0, 0]
    (ChatNode.mk 2 none [] 50 60 100 true [] false)
    (by simp [getAt, c4SampleTree, ChatNode.children]) rfl
  rw [hout]
  refine ⟨?_, ?_⟩
  · simp only [Option.map]
    rw [hx]
    simp [ChatNode.x]
  · simp only [Option.map]
    rw [hy]
    simp [ChatNode.y]
